import Mathlib

/-!
Verification development for the py-pde grid/boundary/operator subsystem.

The Python sources under `pde/` are shallowly embedded as Lean definitions:
machine floats become exact rationals (`ℚ`), numpy arrays become lists or
functions out of `Fin n`, and fallible constructors return `Except`.
Definitions are translated from the Python source wherever that source is
available; parts of the repository that are only referenced (the generic
grid base module, the stencil operator factories, the Poisson solver and
the explicit time stepper) are modelled from the specification, as marked
in their doc comments.
-/

namespace PyPde

/-- Errors raised during grid construction.  `valueError` models Python
`ValueError`, `dimensionError` models the package's `DimensionError`. -/
inductive GridError where
  | valueError (msg : String)
  | dimensionError (msg : String)
deriving DecidableEq, Repr

/-- Modelled from the spec: `discretize_interval` from `pde/grids/base.py`
(absent from the sources; only its callers and tests are present).  The spec
gives the uniform discretization `cell i center = min + (i+0.5)*dx` with
`dx = (max-min)/n`; the function returns the cell-center coordinates and the
discretization step. -/
def discretize_interval (xMin xMax : ℚ) (num : ℕ) : List ℚ × ℚ :=
  let dx := (xMax - xMin) / (num : ℚ)
  ((List.range num).map fun (i : ℕ) => xMin + ((i : ℚ) + 1/2) * dx, dx)

/-- Modelled from the spec: `_check_shape` from `pde/grids/base.py` (absent
from the sources).  Per the spec invariants a grid shape has at least one
axis and every entry is at least 1. -/
def checkShape (shape : List ℕ) : Except GridError (List ℕ) :=
  if shape.isEmpty then .error (.valueError "grid shape requires at least one dimension")
  else if shape.all (fun s => 1 ≤ s) then .ok shape
  else .error (.valueError "invalid number of support points")

/-- An axes-aligned cuboid, from `pde/tools/cuboid.py`: a position vector of
the lower corner and a size vector.  The `mutable` flag of the Python class
only freezes numpy buffers and has no observable effect on values, so it is
not modelled. -/
structure Cuboid where
  pos : List ℚ
  size : List ℚ
deriving DecidableEq, Repr

/-- Cuboid initialisation, from `Cuboid.__init__` together with the `size`
setter (`pde/tools/cuboid.py` lines 24-59): components with negative size
shift the position by that component and store the absolute value. -/
def Cuboid.init (pos size : List ℚ) : Cuboid :=
  { pos := pos.zipWith (fun p s => if s < 0 then p + s else p) size
    size := size.map (fun s => |s|) }

/-- Cuboid construction with the dimension check of the `size` setter:
a size vector whose length differs from the position vector raises. -/
def Cuboid.make (pos size : List ℚ) : Except GridError Cuboid :=
  if pos.length = size.length then .ok (Cuboid.init pos size)
  else .error (.valueError "size vector must have the same dimension as the position vector")

/-- Per-axis bounds of a cuboid, from `Cuboid.bounds`. -/
def Cuboid.bounds (c : Cuboid) : List (ℚ × ℚ) :=
  c.pos.zipWith (fun p s => (p, p + s)) c.size

/-- The `bounds` argument of `CartesianGrid.__init__` after `np.array`:
either a one-dimensional array of numbers or a two-dimensional rectangular
array given by its rows. -/
inductive BoundsInput where
  | flat (vals : List ℚ)
  | nested (rows : List (List ℚ))
deriving DecidableEq, Repr

/-- The `periodic` argument of `CartesianGrid.__init__`: a single boolean or
one flag per axis. -/
inductive PeriodicInput where
  | bool (b : Bool)
  | list (l : List Bool)
deriving DecidableEq, Repr

/-- Interpretation of the `bounds` argument, from `CartesianGrid.__init__`
(`pde/grids/cartesian.py` lines 74-94): a flat length-2 array is rejected as
ambiguous; a one-dimensional array or a column array gives upper bounds only
(lower bounds zero); a two-column array gives lower and upper bounds; any
other shape is rejected.  A ragged nested list, which `np.array` refuses to
convert to a float array, is likewise an error. -/
def interpretBounds : BoundsInput → Except GridError Cuboid
  | .flat vals =>
      if vals.length = 2 then
        .error (.valueError "bounds with shape (2,) are ambiguous")
      else
        .ok (Cuboid.init (List.replicate vals.length 0) vals)
  | .nested rows =>
      if rows.isEmpty then
        -- np.array turns an empty nesting into an empty 1d array
        .ok (Cuboid.init [] [])
      else if rows.all fun r => r.length = 1 then
        .ok (Cuboid.init (List.replicate rows.length 0) (rows.map fun r => r.headD 0))
      else if rows.all fun r => r.length = 2 then
        .ok (Cuboid.init (rows.map fun r => r.headD 0)
              (rows.map fun r => r.getD 1 0 - r.headD 0))
      else
        -- covers a column count other than 1 or 2 as well as ragged rows,
        -- which np.array already refuses to turn into a float array
        .error (.valueError "do not know how to interpret shape for bounds")

/-- Validation of the `periodic` argument, from `CartesianGrid.__init__`
(`pde/grids/cartesian.py` lines 108-116): a single boolean is broadcast to
all axes; a list must have one entry per axis. -/
def checkPeriodic (p : PeriodicInput) (dim : ℕ) : Except GridError (List Bool) :=
  match p with
  | .bool b => .ok (List.replicate dim b)
  | .list l =>
      if l.length = dim then .ok l
      else .error (.dimensionError "number of axes with specified periodicity does not match grid dimension")

/-- A Cartesian grid: the cuboid covering the domain, the shape (cells per
axis), per-axis periodicity flags, and the derived discretization steps,
cell-center coordinates and axes bounds (`pde/grids/cartesian.py`). -/
structure CartesianGrid where
  cuboid : Cuboid
  shape : List ℕ
  periodic : List Bool
  discretization : List ℚ
  axes_coords : List (List ℚ)
  axes_bounds : List (ℚ × ℚ)
deriving DecidableEq, Repr

/-- Assembly of the grid record from a validated cuboid, shape and
periodicity, from `CartesianGrid.__init__` lines 118-127: each axis is
discretized between the two corners of the cuboid. -/
def assembleGrid (cub : Cuboid) (shp : List ℕ) (per : List Bool) : CartesianGrid :=
  let pairs := cub.bounds.zip shp
  { cuboid := cub
    shape := shp
    periodic := per
    discretization := pairs.map fun ab => (discretize_interval ab.1.1 ab.1.2 ab.2).2
    axes_coords := pairs.map fun ab => (discretize_interval ab.1.1 ab.1.2 ab.2).1
    axes_bounds := cub.bounds }

/-- Construction of a Cartesian grid, from `CartesianGrid.__init__`
(`pde/grids/cartesian.py` lines 54-134): interpret the bounds, validate the
shape (broadcasting a single entry to all axes when the bounds define more
than one dimension), check that bounds and shape dimensions agree, validate
the periodicity, and derive coordinates. -/
def mkCartesianGrid (bounds : BoundsInput) (shape : List ℕ) (periodic : PeriodicInput) :
    Except GridError CartesianGrid :=
  match interpretBounds bounds with
  | .error e => .error e
  | .ok cub =>
    match checkShape shape with
    | .error e => .error e
    | .ok shp0 =>
      let dim := cub.pos.length
      let shp := if shp0.length = 1 ∧ 1 < dim then List.replicate dim (shp0.headD 1) else shp0
      if dim = shp.length then
        match checkPeriodic periodic dim with
        | .error e => .error e
        | .ok per => .ok (assembleGrid cub shp per)
      else
        .error (.dimensionError "dimension of bounds and shape are not compatible")

/-- The serialized state of a `CartesianGrid`, from `CartesianGrid.state`:
the record of bounds, shape and periodicity. -/
structure GridState where
  bounds : List (ℚ × ℚ)
  shape : List ℕ
  periodic : List Bool
deriving DecidableEq, Repr

/-- Serialization, from `CartesianGrid.state` (`pde/grids/cartesian.py`
lines 136-143). -/
def CartesianGrid.state (g : CartesianGrid) : GridState :=
  { bounds := g.axes_bounds, shape := g.shape, periodic := g.periodic }

/-- Reconstruction from a stored state, from `CartesianGrid.from_state`
(`pde/grids/cartesian.py` lines 145-164): the three known keys are popped
and the grid is rebuilt; any remaining key raises a `ValueError`.  The
`extraKeys` argument lists the keys of the state record beyond the three
known ones. -/
def CartesianGrid.from_state (s : GridState) (extraKeys : List String) :
    Except GridError CartesianGrid :=
  match mkCartesianGrid (.nested (s.bounds.map fun ab => [ab.1, ab.2])) s.shape
      (.list s.periodic) with
  | .error e => .error e
  | .ok g => if extraKeys.isEmpty then .ok g else .error (.valueError "state items were not used")

/-- Overrides applied by `UnitGrid.__init__` after delegating to the
`CartesianGrid` constructor (`pde/grids/cartesian.py` lines 481-486): the
cuboid is rebuilt from the shape, the discretization becomes all ones, and
the cell-center coordinates become `i + 0.5`. -/
def unitOverride (g0 : CartesianGrid) : CartesianGrid :=
  let cub := Cuboid.init (List.replicate g0.shape.length 0)
    (g0.shape.map fun (s : ℕ) => (s : ℚ))
  { g0 with
    cuboid := cub
    discretization := List.replicate g0.shape.length 1
    axes_coords := g0.shape.map fun n => (List.range n).map fun (i : ℕ) => (i : ℚ) + 1/2
    axes_bounds := cub.bounds }

/-- Construction of a unit grid, from `UnitGrid.__init__`
(`pde/grids/cartesian.py` lines 465-486): delegate to `CartesianGrid` with
bounds `(0, s)` per axis, then apply the overrides. -/
def mkUnitGrid (shape : List ℕ) (periodic : PeriodicInput) : Except GridError CartesianGrid :=
  match mkCartesianGrid (.nested (shape.map fun (s : ℕ) => [(0 : ℚ), (s : ℚ)])) shape
      periodic with
  | .error e => .error e
  | .ok g => .ok (unitOverride g)

/-- Modelled from the spec: the ghost-cell value to the left of cell `i`
along one axis under `auto_periodic_neumann` boundary conditions
(`pde/grids/operators/cartesian.py` and the boundary modules are absent from
the sources).  A periodic axis wraps around; a non-periodic axis uses the
zero-derivative (Neumann) ghost value, which equals the adjacent interior
value. -/
def leftNb {n : ℕ} (per : Bool) (f : Fin n → ℚ) (i : Fin n) : ℚ :=
  if i.val = 0 then
    if per then f ⟨n - 1, Nat.sub_lt i.pos Nat.one_pos⟩ else f i
  else f ⟨i.val - 1, Nat.lt_of_le_of_lt (Nat.sub_le _ _) i.isLt⟩

/-- Modelled from the spec: the ghost-cell value to the right of cell `i`
along one axis under `auto_periodic_neumann` boundary conditions; see
`leftNb`. -/
def rightNb {n : ℕ} (per : Bool) (f : Fin n → ℚ) (i : Fin n) : ℚ :=
  if h : i.val + 1 < n then f ⟨i.val + 1, h⟩
  else if per then f ⟨0, i.pos⟩ else f i

/-- Modelled from the spec: the per-axis second central difference
`(f[i-1] - 2 f[i] + f[i+1]) / dx^2` of the Cartesian Laplacian stencil
(spec section 4.4), with ghost values from `auto_periodic_neumann`. -/
def axisDiff {n : ℕ} (per : Bool) (dx : ℚ) (f : Fin n → ℚ) (i : Fin n) : ℚ :=
  (leftNb per f i - 2 * f i + rightNb per f i) / dx ^ 2

/-- Modelled from the spec: the 1d Cartesian Laplacian as the second central
difference along the only axis. -/
def laplace1d {n : ℕ} (per : Bool) (dx : ℚ) (f : Fin n → ℚ) (i : Fin n) : ℚ :=
  axisDiff per dx f i

/-- Modelled from the spec: the 2d Cartesian Laplacian as the sum of the
second central differences per axis. -/
def laplace2d {n m : ℕ} (p0 p1 : Bool) (dx0 dx1 : ℚ) (f : Fin n → Fin m → ℚ)
    (i : Fin n) (j : Fin m) : ℚ :=
  axisDiff p0 dx0 (fun a => f a j) i + axisDiff p1 dx1 (f i) j

/-- Modelled from the spec: the 3d Cartesian Laplacian as the sum of the
second central differences per axis. -/
def laplace3d {n m k : ℕ} (p0 p1 p2 : Bool) (dx0 dx1 dx2 : ℚ)
    (f : Fin n → Fin m → Fin k → ℚ) (i : Fin n) (j : Fin m) (l : Fin k) : ℚ :=
  axisDiff p0 dx0 (fun a => f a j l) i + axisDiff p1 dx1 (fun b => f i b l) j +
    axisDiff p2 dx2 (f i j) l

/-- Modelled from the spec: `make_corner_point_setter_2d` from
`pde/grids/operators/cartesian.py` (absent from the sources).  Corner ghost
cells of the padded array are derived from the edge ghost cells: a periodic
axis wraps the corner index to the interior, and with no periodic axis the
corner is the arithmetic mean of its two adjacent edge ghost values (spec
sections 4.4 and 8).  Interior and edge cells are left untouched. -/
def cornerSet2d {n m : ℕ} (px py : Bool) (arr : Fin (n + 2) → Fin (m + 2) → ℚ) :
    Fin (n + 2) → Fin (m + 2) → ℚ := fun i j =>
  if (i.val = 0 ∨ i.val = n + 1) ∧ (j.val = 0 ∨ j.val = m + 1) then
    let wrapX : Fin (n + 2) := if i.val = 0 then ⟨n, by omega⟩ else ⟨1, by omega⟩
    let wrapY : Fin (m + 2) := if j.val = 0 then ⟨m, by omega⟩ else ⟨1, by omega⟩
    let adjX : Fin (n + 2) := if i.val = 0 then ⟨1, by omega⟩ else ⟨n, by omega⟩
    let adjY : Fin (m + 2) := if j.val = 0 then ⟨1, by omega⟩ else ⟨m, by omega⟩
    match px, py with
    | true, true => arr wrapX wrapY
    | true, false => arr wrapX j
    | false, true => arr i wrapY
    | false, false => (arr i adjY + arr adjX j) / 2
  else arr i j

/-- Modelled from the spec: the corner-weighted 9-point Laplacian stencil of
spec section 4.4 for a uniform 2d grid, which blends the axis-aligned and
diagonal neighbor contributions by the corner weight `w` in `[0, 1/3]`.
Writing `c` for the center, the blended stencil has weight `(1-w)/dx^2` on
the four axis neighbors, `w/(2 dx^2)` on the four diagonal neighbors and
`-(4-2w)/dx^2` on the center, so that `w = 1/3` gives the classical 9-point
stencil. -/
def ninePointLaplace {n m : ℕ} (w : ℚ) (px py : Bool) (dx : ℚ)
    (f : Fin n → Fin m → ℚ) (i : Fin n) (j : Fin m) : ℚ :=
  let c := f i j
  let xm := leftNb px (fun a => f a j) i
  let xp := rightNb px (fun a => f a j) i
  let ym := leftNb py (f i) j
  let yp := rightNb py (f i) j
  let mm := leftNb px (fun a => leftNb py (f a) j) i
  let mp := leftNb px (fun a => rightNb py (f a) j) i
  let pm := rightNb px (fun a => leftNb py (f a) j) i
  let pp := rightNb px (fun a => rightNb py (f a) j) i
  ((1 - w) * (xm + xp + ym + yp) + w / 2 * (mm + mp + pm + pp) - (4 - 2 * w) * c) / dx ^ 2

/-- Default metric of `CoordinatesBase.metric` (`pde/grids/coordinates/base.py`
lines 203-217) restricted to its diagonal: the diagonal entries are the
element-wise squares of the scale factors. -/
def metricDiagOfScaleFactors (sf : List ℚ) : List ℚ :=
  sf.map fun h => h ^ 2

/-- Default derived scale factors of `CoordinatesBase._scale_factors`
(`pde/grids/coordinates/base.py` lines 110-111): the code returns the
element-wise square of the metric diagonal. -/
def scaleFactorsOfMetricDiag (diagVals : List ℚ) : List ℚ :=
  diagVals.map fun g => g ^ 2

/-- Diagnostics returned by a solver run (spec section 3): the step count. -/
structure SolverDiagnostics where
  steps : ℕ
deriving DecidableEq, Repr

/-- Modelled from the spec: the fixed-step explicit solver loop of spec
section 4.5 (the solver modules are absent from the sources).  Starting at
time 0, each iteration advances the state by `dt` times the evolution rate
and the time by `dt`, until the time reaches the end of the time range; the
step count is recorded.  The first argument is recursion fuel standing in
for the unbounded Python loop. -/
def fixedStepLoop (rhs : ℚ → ℚ → ℚ) : ℕ → ℚ → ℚ → ℚ → ℚ → ℕ → ℚ × ℕ
  | 0, _, state, _, _, steps => (state, steps)
  | fuel + 1, t, state, tEnd, dt, steps =>
      if tEnd ≤ t then (state, steps)
      else fixedStepLoop rhs fuel (t + dt) (state + dt * rhs state t) tEnd dt (steps + 1)

/-- Modelled from the spec: running the fixed-step explicit solver for a
time range `[0, tEnd]` with step `dt`, returning the final state and the
diagnostics record. -/
def solveFixed (fuel : ℕ) (rhs : ℚ → ℚ → ℚ) (state0 : ℚ) (tEnd dt : ℚ) :
    ℚ × SolverDiagnostics :=
  let r := fixedStepLoop rhs fuel 0 state0 tEnd dt 0
  (r.1, ⟨r.2⟩)

/-- The serialized state of a `UnitGrid`, from `UnitGrid.state`: only shape
and periodicity are stored. -/
structure UnitGridState where
  shape : List ℕ
  periodic : List Bool
deriving DecidableEq, Repr

/-- Serialization, from `UnitGrid.state` (`pde/grids/cartesian.py` lines
488-491). -/
def unitGridState (g : CartesianGrid) : UnitGridState :=
  { shape := g.shape, periodic := g.periodic }

/-- Reconstruction of a unit grid from a stored state, from
`UnitGrid.from_state` (`pde/grids/cartesian.py` lines 493-505). -/
def unitGridFromState (s : UnitGridState) (extraKeys : List String) :
    Except GridError CartesianGrid :=
  match mkUnitGrid s.shape (.list s.periodic) with
  | .error e => .error e
  | .ok g => if extraKeys.isEmpty then .ok g else .error (.valueError "state items were not used")

/-- Bounds inputs that `CartesianGrid.__init__` rejects as ambiguous: a flat
array of exactly two entries (`pde/grids/cartesian.py` lines 75-80). -/
def boundsAmbiguous : BoundsInput → Prop
  | .flat vals => vals.length = 2
  | .nested _ => False

/-- Bounds inputs whose shape `CartesianGrid.__init__` cannot interpret:
a nonempty two-dimensional array whose rows have neither exactly one nor
exactly two columns (`pde/grids/cartesian.py` lines 91-94). -/
def boundsUninterpretable : BoundsInput → Prop
  | .flat _ => False
  | .nested rows => rows ≠ [] ∧ ¬(∀ r ∈ rows, r.length = 1) ∧ ¬(∀ r ∈ rows, r.length = 2)

/-- The number of grid axes determined by a bounds input. -/
def boundsDim : BoundsInput → ℕ
  | .flat vals => vals.length
  | .nested rows => rows.length

/-- The Cartesian grid over `[0, 1]` with a single cell, used as concrete
instance in witnesses. -/
def gridW4 : CartesianGrid :=
  { cuboid := ⟨[0], [1]⟩, shape := [1], periodic := [false], discretization := [1]
    axes_coords := [[1/2]], axes_bounds := [(0, 1)] }

/-- The unit grid with two cells, used as concrete instance in witnesses. -/
def gridWU : CartesianGrid :=
  { cuboid := ⟨[0], [2]⟩, shape := [2], periodic := [false], discretization := [1]
    axes_coords := [[1/2, 3/2]], axes_bounds := [(0, 2)] }

/-- Padded array of the corner-setter scenario with both axes periodic: the
edge ghost cells have already been filled, corner values are arbitrary. -/
def cornerArrBoth (a b c d : ℚ) : Fin 3 → Fin 3 → ℚ := fun i j =>
  ![![a, 3, b], ![3, 3, 3], ![c, 3, d]] i j

/-- Padded array of the corner-setter scenario with only the first axis
periodic: the periodic edge ghosts are 3, the Neumann-side edge ghosts keep
the values 2 and 4. -/
def cornerArrPx (a b c d : ℚ) : Fin 3 → Fin 3 → ℚ := fun i j =>
  ![![a, 3, b], ![2, 3, 4], ![c, 3, d]] i j

/-- Padded array of the corner-setter scenario with only the second axis
periodic: the periodic edge ghosts are 3, the other edge ghosts keep the
values 1 and 5. -/
def cornerArrPy (a b c d : ℚ) : Fin 3 → Fin 3 → ℚ := fun i j =>
  ![![a, 1, b], ![3, 3, 3], ![c, 5, d]] i j

/-- Padded array of the corner-setter scenario with no periodic axis: the
interior value 3 is surrounded by the edge ghost values 1, 2, 4, 5. -/
def cornerArrNone (a b c d : ℚ) : Fin 3 → Fin 3 → ℚ := fun i j =>
  ![![a, 1, b], ![2, 3, 4], ![c, 5, d]] i j

/-- Expected padded array after corner setting with only the first axis
periodic. -/
def cornerOutPx : Fin 3 → Fin 3 → ℚ := fun i j =>
  ![![2, 3, 4], ![2, 3, 4], ![2, 3, 4]] i j

/-- Expected padded array after corner setting with only the second axis
periodic. -/
def cornerOutPy : Fin 3 → Fin 3 → ℚ := fun i j =>
  ![![1, 1, 1], ![3, 3, 3], ![5, 5, 5]] i j

/-- Expected padded array after corner setting with no periodic axis: each
corner is the mean of its two adjacent edge ghosts. -/
def cornerOutNone : Fin 3 → Fin 3 → ℚ := fun i j =>
  ![![3/2, 1, 5/2], ![2, 3, 4], ![7/2, 5, 9/2]] i j

open Matrix

variable {ι : Type} [Fintype ι] [DecidableEq ι]

/-- Abstract discretized elliptic operator. -/
def opL (c : ι → ι → ℚ) (p : ι → ℚ) (w : ι → ℚ) (u : ι → ℚ) (i : ι) : ℚ :=
  ((∑ j, c i j * (u j - u i)) - p i * u i) / w i

/-- The assembled sparse matrix of the operator. -/
def sysMatrix (c : ι → ι → ℚ) (p : ι → ℚ) (w : ι → ℚ) : Matrix ι ι ℚ :=
  Matrix.of fun i j => ((c i j - if j = i then ((∑ k, c i k) + p i) else 0) / w i)

/-- Direct linear solve through Cramer's rule. -/
def cramerSolve (A : Matrix ι ι ℚ) (b : ι → ℚ) : ι → ℚ :=
  fun i => (A.det)⁻¹ * A.cramer b i

/-- Every pair of cells is linked by a chain of nonzero conductances. -/
def Conn (c : ι → ι → ℚ) : Prop :=
  ∀ i j : ι, Relation.ReflTransGen (fun a b => c a b ≠ 0) i j

/-- Rank-one deflation matrix whose rows all equal the weight vector. -/
def deflate (w : ι → ℚ) : Matrix ι ι ℚ :=
  Matrix.of fun _ j => w j

/-- Error reported when the assembled linear system is singular and the
right-hand side is incompatible with it. -/
def singularMsg : String :=
  "RuntimeError: Poisson equation has no solution: the system is singular (fully periodic or Neumann boundary conditions) and the right-hand side does not have zero weighted mean"

/-- Candidate solution: direct Cramer solve of the assembled system, after a
rank-one deflation whenever no penalty is active. -/
def solveCandidate (c : ι → ι → ℚ) (p w : ι → ℚ) (f : ι → ℚ) : ι → ℚ :=
  if (∀ i, p i = 0) then cramerSolve (sysMatrix c p w + deflate w) f
  else cramerSolve (sysMatrix c p w) f

/-- Linear solve with verification: the candidate is returned only when it
satisfies the discretized equation exactly, otherwise a clear error is raised. -/
def solveSystem (c : ι → ι → ℚ) (p w : ι → ℚ) (f : ι → ℚ) : Except String (ι → ℚ) :=
  if (∀ i, opL c p w (solveCandidate c p w f) i = f i) then
    Except.ok (solveCandidate c p w f)
  else Except.error singularMsg

/-- Modelled from the spec: the boundary-condition surface of spec section 6.
Condition on one side of a non-periodic axis: `value` (Dirichlet, homogeneous)
or `derivative` (Neumann, value 0 default). -/
inductive SideBC where
  | dirichlet
  | neumann
deriving DecidableEq, Repr

/-- Boundary conditions of one axis: periodic, or one condition per side. -/
inductive AxisBC where
  | periodic
  | sides (lo hi : SideBC)
deriving DecidableEq, Repr

/-- Ghost value next to a boundary cell: homogeneous Dirichlet reflects the
cell value with a sign flip, homogeneous Neumann mirrors it. -/
def sideGhost : SideBC → ℚ → ℚ
  | SideBC.dirichlet, x => -x
  | SideBC.neumann, x => x

/-- Penalty contributed by one boundary side. -/
def sidePen : SideBC → ℚ
  | SideBC.dirichlet => 2
  | SideBC.neumann => 0

/-- Modelled from the spec: the per-axis stencil of spec section 4.4 (the
operator factories are absent from src/).  Second difference along one axis
with ghost cells: periodic wrap-around or the per-side ghost rule. -/
def axisSecondDiff (n : ℕ) (bc : AxisBC) (v : Fin n → ℚ) (t : Fin n) : ℚ :=
  let lo : ℚ :=
    if t.val = 0 then
      match bc with
      | AxisBC.periodic => v ⟨n - 1, Nat.sub_lt t.pos Nat.one_pos⟩
      | AxisBC.sides bl _ => sideGhost bl (v t)
    else v ⟨t.val - 1, Nat.lt_of_le_of_lt (Nat.sub_le t.val 1) t.isLt⟩
  let hi : ℚ :=
    if h : t.val + 1 < n then v ⟨t.val + 1, h⟩
    else
      match bc with
      | AxisBC.periodic => v ⟨0, t.pos⟩
      | AxisBC.sides _ bh => sideGhost bh (v t)
  lo + hi - 2 * v t

/-- Conductance between two cells of one axis: adjacency plus periodic wrap. -/
def axisCond (n : ℕ) (bc : AxisBC) (s t : Fin n) : ℚ :=
  (if t.val = s.val + 1 then 1 else 0) + (if s.val = t.val + 1 then 1 else 0) +
    (match bc with
     | AxisBC.periodic =>
        (if s.val = 0 ∧ t.val + 1 = n then 1 else 0)
          + (if t.val = 0 ∧ s.val + 1 = n then 1 else 0)
     | AxisBC.sides _ _ => 0)

/-- Dirichlet penalty of one axis at a cell. -/
def axisPen (n : ℕ) (bc : AxisBC) (t : Fin n) : ℚ :=
  match bc with
  | AxisBC.periodic => 0
  | AxisBC.sides bl bh =>
      (if t.val = 0 then sidePen bl else 0) + (if t.val + 1 = n then sidePen bh else 0)

/-- Product of squared spacings of all axes except one. -/
def axisVolW (d : ℕ) (dx : Fin d → ℚ) (k : Fin d) : ℚ :=
  ∏ m, (if m = k then 1 else (dx m)^2)

/-- Product of all squared spacings. -/
def cartVol (d : ℕ) (dx : Fin d → ℚ) : ℚ :=
  ∏ m, (dx m)^2

/-- Modelled from the spec: the Cartesian Laplacian of spec section 4.4, a sum
over axes of the one-dimensional second difference with ghost cells, divided by
the squared spacing of that axis. -/
def LaplacianD (d : ℕ) (n : Fin d → ℕ) (dx : Fin d → ℚ) (bc : Fin d → AxisBC)
    (u : (∀ k, Fin (n k)) → ℚ) (i : ∀ k, Fin (n k)) : ℚ :=
  ∑ k, axisSecondDiff (n k) (bc k) (fun t => u (Function.update i k t)) (i k) / (dx k)^2

/-- Conductance between two cells of the Cartesian grid: nonzero only when
they differ along a single axis. -/
def cartCond (d : ℕ) (n : Fin d → ℕ) (dx : Fin d → ℚ) (bc : Fin d → AxisBC)
    (i j : ∀ k, Fin (n k)) : ℚ :=
  ∑ k, if (∀ m, m ≠ k → i m = j m) then
    axisCond (n k) (bc k) (i k) (j k) * axisVolW d dx k else 0

/-- Total Dirichlet penalty at a Cartesian cell. -/
def cartPen (d : ℕ) (n : Fin d → ℕ) (dx : Fin d → ℚ) (bc : Fin d → AxisBC)
    (i : ∀ k, Fin (n k)) : ℚ :=
  ∑ k, axisPen (n k) (bc k) (i k) * axisVolW d dx k

/-- An axis boundary condition imposing a Dirichlet side. -/
def axisHasDirichlet : AxisBC → Prop
  | AxisBC.periodic => False
  | AxisBC.sides bl bh => bl = SideBC.dirichlet ∨ bh = SideBC.dirichlet

instance (bc : AxisBC) : Decidable (axisHasDirichlet bc) :=
  match bc with
  | AxisBC.periodic => isFalse fun h => h
  | AxisBC.sides bl bh =>
      inferInstanceAs (Decidable (bl = SideBC.dirichlet ∨ bh = SideBC.dirichlet))

/-- Modelled from the spec: the radial Laplacian of the polar grid (the polar
operator module is absent from src/; its tests parametrize over PolarSymGrid
with inner radius 0 or 2).  Conservative form of u'' + u'/r on cell centers at
rmin + (i + 1/2) dr: divergence of the radial flux r du/dr, with ghost cells
beyond the inner and outer boundaries; the two forms coincide identically.  At
rmin = 0 the inner face has zero radius and the inner ghost drops out, as in
the continuous operator. -/
def polarLaplacian (rmin : ℚ) (n : ℕ) (dr : ℚ) (bcIn bcOut : SideBC)
    (u : Fin n → ℚ) (i : Fin n) : ℚ :=
  let uLo : ℚ :=
    if i.val = 0 then sideGhost bcIn (u i)
    else u ⟨i.val - 1, Nat.lt_of_le_of_lt (Nat.sub_le i.val 1) i.isLt⟩
  let uHi : ℚ :=
    if h : i.val + 1 < n then u ⟨i.val + 1, h⟩ else sideGhost bcOut (u i)
  ((rmin + ((i.val : ℚ) + 1) * dr) * (uHi - u i)
      - (rmin + (i.val : ℚ) * dr) * (u i - uLo))
    / ((rmin + ((i.val : ℚ) + 1/2) * dr) * dr^2)

/-- Conductance between neighboring polar cells: the radius of their face. -/
def polarCond (rmin : ℚ) (n : ℕ) (dr : ℚ) (s t : Fin n) : ℚ :=
  (if t.val = s.val + 1 then rmin + (t.val : ℚ) * dr else 0)
  + (if s.val = t.val + 1 then rmin + (s.val : ℚ) * dr else 0)

/-- Dirichlet penalties at the inner and outer polar boundary. -/
def polarPen (rmin : ℚ) (n : ℕ) (dr : ℚ) (bcIn bcOut : SideBC) (t : Fin n) : ℚ :=
  (if t.val = 0 then (rmin + (t.val : ℚ) * dr) * sidePen bcIn else 0)
  + (if t.val + 1 = n then (rmin + ((t.val : ℚ) + 1) * dr) * sidePen bcOut else 0)

/-- Cell volume weight of a polar cell (center radius times squared spacing). -/
def polarVol (rmin : ℚ) (n : ℕ) (dr : ℚ) (t : Fin n) : ℚ :=
  (rmin + ((t.val : ℚ) + 1/2) * dr) * dr^2

/-- A grid/boundary configuration accepted by the Poisson solver: a Cartesian
grid of any dimension with per-axis periodic, Dirichlet or Neumann conditions,
or a polar grid with inner radius rmin and per-boundary conditions. -/
inductive PoissonConfig where
  | cartesian (d : ℕ) (n : Fin d → ℕ) (dx : Fin d → ℚ) (bc : Fin d → AxisBC)
  | polar (rmin : ℚ) (n : ℕ) (dr : ℚ) (bcIn bcOut : SideBC)

/-- The cell-index type of a configuration. -/
def PoissonConfig.index : PoissonConfig → Type
  | PoissonConfig.cartesian d n _ _ => ∀ k : Fin d, Fin (n k)
  | PoissonConfig.polar _ n _ _ _ => Fin n

instance (cfg : PoissonConfig) : Fintype cfg.index := by
  cases cfg <;> dsimp [PoissonConfig.index] <;> infer_instance

instance (cfg : PoissonConfig) : DecidableEq cfg.index := by
  cases cfg <;> dsimp [PoissonConfig.index] <;> exact fun a b => inferInstance

/-- Conductances of the assembled linear system of a configuration. -/
def PoissonConfig.c : (cfg : PoissonConfig) → cfg.index → cfg.index → ℚ
  | PoissonConfig.cartesian d n dx bc => cartCond d n dx bc
  | PoissonConfig.polar rmin n dr _ _ => polarCond rmin n dr

/-- Dirichlet penalties of the assembled linear system of a configuration. -/
def PoissonConfig.p : (cfg : PoissonConfig) → cfg.index → ℚ
  | PoissonConfig.cartesian d n dx bc => cartPen d n dx bc
  | PoissonConfig.polar rmin n dr bcIn bcOut => polarPen rmin n dr bcIn bcOut

/-- Cell weights of the assembled linear system of a configuration. -/
def PoissonConfig.w : (cfg : PoissonConfig) → cfg.index → ℚ
  | PoissonConfig.cartesian d _ dx _ => fun _ => cartVol d dx
  | PoissonConfig.polar rmin n dr _ _ => polarVol rmin n dr

/-- The Laplacian stencil of a configuration. -/
def PoissonConfig.laplacian : (cfg : PoissonConfig) → (cfg.index → ℚ) → cfg.index → ℚ
  | PoissonConfig.cartesian d n dx bc => LaplacianD d n dx bc
  | PoissonConfig.polar rmin n dr bcIn bcOut => polarLaplacian rmin n dr bcIn bcOut

/-- Geometric well-formedness: at least one cell per axis and nonzero spacings
(for the polar grid a positive spacing and a nonnegative inner radius). -/
def PoissonConfig.wellFormed : PoissonConfig → Prop
  | PoissonConfig.cartesian _ n dx _ => (∀ k, 1 ≤ n k) ∧ (∀ k, dx k ≠ 0)
  | PoissonConfig.polar rmin n dr _ _ => 1 ≤ n ∧ 0 ≤ rmin ∧ 0 < dr

/-- A fully periodic/Neumann configuration: no Dirichlet side anywhere (an
inner Dirichlet condition at radius zero acts on a face of zero measure and
leaves the system singular as well). -/
def PoissonConfig.singularBC : PoissonConfig → Prop
  | PoissonConfig.cartesian _ _ _ bc => ∀ k, ¬ axisHasDirichlet (bc k)
  | PoissonConfig.polar rmin _ _ bcIn bcOut =>
      bcOut = SideBC.neumann ∧ (bcIn = SideBC.neumann ∨ rmin = 0)

/-- The right-hand side has zero volume-weighted mean, as produced by the
`d -= d.average` normalization the Poisson tests apply before solving (the
average of a field is its volume integral over the total volume). -/
def PoissonConfig.balanced (cfg : PoissonConfig) (f : cfg.index → ℚ) : Prop :=
  ∑ i, cfg.w i * f i = 0

/-- Modelled from the spec: `solve_poisson_equation` of spec section 4.6 (the
solver module is absent from src/).  Solves `Laplacian(u) = f` by assembling
the sparse linear system of the stencil once per grid/boundary pair and solving
it directly; a clear error is raised when the system is singular and no
solution exists.  Boundary values enter the assembled system only as a constant
offset of the right-hand side, so the homogeneous system here governs
solvability for inhomogeneous `value`/`derivative` data as well. -/
def solve_poisson_equation (cfg : PoissonConfig) (f : cfg.index → ℚ) :
    Except String (cfg.index → ℚ) :=
  solveSystem cfg.c cfg.p cfg.w f

/-- Demonstration configuration: a polar grid with two rings, unit spacing and
Neumann conditions on both boundaries (a singular configuration). -/
def polarDemoConfig : PoissonConfig :=
  PoissonConfig.polar 0 2 1 SideBC.neumann SideBC.neumann

/-- Demonstration right-hand side with zero volume-weighted mean on the
demonstration configuration. -/
def polarDemoRhs : Fin 2 → ℚ :=
  fun i => if i.val = 0 then 3 else -1

/-! ## Helper lemmas -/

/-- Along an axis of a single cell, the second central difference of the
`auto_periodic_neumann` stencil vanishes for either periodicity: both ghost
values coincide with the interior value. -/
theorem axisDiff_const_fin1 (per : Bool) (dx c : ℚ) (j : Fin 1) :
    axisDiff per dx (fun _ => c) j = 0 := by
  have hj : j.val = 0 := by omega
  simp [axisDiff, leftNb, rightNb, hj]
  exact Or.inl (by ring)

/-- Unfolding lemma for the fixed-step loop when the time range is
exhausted. -/
theorem fixedStepLoop_stop (rhs : ℚ → ℚ → ℚ) (fuel : ℕ) (t s tEnd dt : ℚ) (steps : ℕ)
    (h : tEnd ≤ t) : fixedStepLoop rhs (fuel + 1) t s tEnd dt steps = (s, steps) := by
  simp [fixedStepLoop, h]

/-- Unfolding lemma for one iteration of the fixed-step loop. -/
theorem fixedStepLoop_step (rhs : ℚ → ℚ → ℚ) (fuel : ℕ) (t s tEnd dt : ℚ) (steps : ℕ)
    (h : ¬ tEnd ≤ t) :
    fixedStepLoop rhs (fuel + 1) t s tEnd dt steps =
      fixedStepLoop rhs fuel (t + dt) (s + dt * rhs s t) tEnd dt (steps + 1) := by
  simp [fixedStepLoop, h]

/-- Inversion of a successful grid construction into its validation steps. -/
theorem mk_ok_elim {b : BoundsInput} {shape : List ℕ} {p : PeriodicInput} {g : CartesianGrid}
    (h : mkCartesianGrid b shape p = .ok g) :
    ∃ cub shp0 per,
      interpretBounds b = .ok cub ∧ checkShape shape = .ok shp0 ∧
      checkPeriodic p cub.pos.length = .ok per ∧
      (let shp := if shp0.length = 1 ∧ 1 < cub.pos.length then
          List.replicate cub.pos.length (shp0.headD 1) else shp0
       cub.pos.length = shp.length ∧ g = assembleGrid cub shp per) := by
  unfold mkCartesianGrid at h
  cases hib : interpretBounds b with
  | error e => rw [hib] at h; exact absurd h (by simp)
  | ok cub =>
    rw [hib] at h
    cases hcs : checkShape shape with
    | error e => rw [hcs] at h; exact absurd h (by simp)
    | ok shp0 =>
      rw [hcs] at h
      simp only at h
      by_cases hdim : cub.pos.length =
          (if shp0.length = 1 ∧ 1 < cub.pos.length then
            List.replicate cub.pos.length (shp0.headD 1) else shp0).length
      · rw [if_pos hdim] at h
        cases hcp : checkPeriodic p cub.pos.length with
        | error e => rw [hcp] at h; exact absurd h (by simp)
        | ok per =>
          rw [hcp] at h
          simp only [Except.ok.injEq] at h
          exact ⟨cub, shp0, per, rfl, rfl, hcp, hdim, h.symm⟩
      · rw [if_neg hdim] at h
        exact absurd h (by simp)

/-- Bounds given as a list of pairs are interpreted as lower bounds and
differences. -/
theorem interpretBounds_nested_pairs (bds : List (ℚ × ℚ)) :
    interpretBounds (.nested (bds.map fun ab => [ab.1, ab.2])) =
      .ok (Cuboid.init (bds.map Prod.fst) (bds.map fun ab => ab.2 - ab.1)) := by
  cases bds with
  | nil => simp [interpretBounds, Cuboid.init]
  | cons a t =>
    have h2 : ((a :: t).map fun ab => ([ab.1, ab.2] : List ℚ)).all
        (fun r => r.length = 2) = true := by
      simp only [List.all_eq_true, List.mem_map]
      rintro r ⟨ab, _, rfl⟩
      simp
    have h1 : ((a :: t).map fun ab => ([ab.1, ab.2] : List ℚ)).all
        (fun r => r.length = 1) = false := by
      simp
    simp only [interpretBounds, List.map_cons, List.isEmpty_cons, Bool.false_eq_true,
      if_false] at h1 h2 ⊢
    rw [h1, h2]
    simp [Cuboid.init, List.map_map, Function.comp]

/-- With componentwise nonnegative sizes the cuboid initialisation keeps
position and size unchanged (up to truncation to matching lengths). -/
theorem Cuboid.init_of_nonneg (pos size : List ℚ) (h : ∀ s ∈ size, 0 ≤ s) :
    Cuboid.init pos size = ⟨pos.take size.length, size⟩ := by
  unfold Cuboid.init
  congr 1
  · induction pos generalizing size with
    | nil => simp
    | cons p ps ih =>
      cases size with
      | nil => simp
      | cons s ss =>
        have hs : ¬ s < 0 := not_lt.mpr (h s (by simp))
        simp only [List.zipWith_cons_cons, List.length_cons, List.take_succ_cons, hs, if_false]
        rw [ih ss (fun x hx => h x (by simp [hx]))]
  · have : ∀ s ∈ size, |s| = s := fun s hs => abs_of_nonneg (h s hs)
    calc size.map (fun s => |s|) = size.map id := List.map_congr_left (by simpa)
    _ = size := List.map_id _

/-- Specialisation of `Cuboid.init_of_nonneg` to equal lengths. -/
theorem Cuboid.init_eq_self (pos size : List ℚ) (hlen : pos.length = size.length)
    (h : ∀ s ∈ size, 0 ≤ s) : Cuboid.init pos size = ⟨pos, size⟩ := by
  rw [Cuboid.init_of_nonneg pos size h, ← hlen, List.take_length]

/-- Every size component of an initialised cuboid is nonnegative. -/
theorem Cuboid.init_size_nonneg (pos size : List ℚ) :
    ∀ q ∈ (Cuboid.init pos size).size, 0 ≤ q := by
  intro q hq
  simp only [Cuboid.init, List.mem_map] at hq
  obtain ⟨s, _, rfl⟩ := hq
  exact abs_nonneg s

/-- Bounds of cuboids built by `zipWith` are ordered when sizes are
nonnegative. -/
theorem zipWith_bounds_ordered (l1 l2 : List ℚ) (h : ∀ s ∈ l2, 0 ≤ s) :
    ∀ ab ∈ List.zipWith (fun p s => ((p, p + s) : ℚ × ℚ)) l1 l2, ab.1 ≤ ab.2 := by
  induction l1 generalizing l2 with
  | nil => simp
  | cons p ps ih =>
    cases l2 with
    | nil => simp
    | cons s ss =>
      intro ab hab
      simp only [List.zipWith_cons_cons, List.mem_cons] at hab
      rcases hab with rfl | hab
      · have := h s (by simp)
        simp only
        linarith
      · exact ih ss (fun x hx => h x (by simp [hx])) ab hab

/-- A cuboid produced by `interpretBounds` has matching lengths and
nonnegative sizes. -/
theorem interpretBounds_ok_inv {b : BoundsInput} {cub : Cuboid}
    (h : interpretBounds b = .ok cub) :
    cub.pos.length = cub.size.length ∧ (∀ q ∈ cub.size, 0 ≤ q) := by
  have key : ∃ pos size, pos.length = size.length ∧ cub = Cuboid.init pos size := by
    cases b with
    | flat vals =>
      simp only [interpretBounds] at h
      by_cases h2 : vals.length = 2
      · simp [h2] at h
      · rw [if_neg h2] at h
        simp only [Except.ok.injEq] at h
        exact ⟨_, _, by simp, h.symm⟩
    | nested rows =>
      simp only [interpretBounds] at h
      by_cases he : rows.isEmpty
      · rw [if_pos he] at h
        simp only [Except.ok.injEq] at h
        exact ⟨[], [], rfl, h.symm⟩
      · rw [if_neg he] at h
        by_cases h1 : rows.all fun r => r.length = 1
        · rw [if_pos h1] at h
          simp only [Except.ok.injEq] at h
          exact ⟨_, _, by simp, h.symm⟩
        · rw [if_neg h1] at h
          by_cases hb : rows.all fun r => r.length = 2
          · rw [if_pos hb] at h
            simp only [Except.ok.injEq] at h
            exact ⟨_, _, by simp, h.symm⟩
          · simp [hb] at h
  obtain ⟨pos, size, hlen, rfl⟩ := key
  refine ⟨?_, Cuboid.init_size_nonneg pos size⟩
  simp [Cuboid.init, hlen]

/-- Projections of cuboid bounds recover position and size. -/
theorem cuboid_bounds_proj (cub : Cuboid) (hlen : cub.pos.length = cub.size.length) :
    cub.bounds.map Prod.fst = cub.pos ∧
      (cub.bounds.map fun ab => ab.2 - ab.1) = cub.size := by
  obtain ⟨pos, size⟩ := cub
  simp only [Cuboid.bounds] at *
  induction pos generalizing size with
  | nil => cases size with
    | nil => simp
    | cons s ss => simp at hlen
  | cons p ps ih =>
    cases size with
    | nil => simp at hlen
    | cons s ss =>
      simp only [List.length_cons, Nat.succ.injEq] at hlen
      have := ih ss hlen
      simp only [List.zipWith_cons_cons, List.map_cons, this.1, this.2]
      constructor <;> simp [this.1, this.2]

/-- Inversion of a successful shape check. -/
theorem checkShape_ok_inv {s s0 : List ℕ} (h : checkShape s = .ok s0) :
    s0 = s ∧ s ≠ [] ∧ ∀ x ∈ s, 1 ≤ x := by
  simp only [checkShape] at h
  by_cases he : s.isEmpty
  · simp [he] at h
  · rw [if_neg he] at h
    by_cases ha : s.all fun x => 1 ≤ x
    · rw [if_pos ha] at h
      simp only [Except.ok.injEq] at h
      refine ⟨h.symm, by simpa [List.isEmpty_iff] using he,
        by simpa [List.all_eq_true] using ha⟩
    · simp [ha] at h

/-- A nonempty shape of positive entries passes the shape check. -/
theorem checkShape_ok_self (s : List ℕ) (hne : s ≠ []) (h : ∀ x ∈ s, 1 ≤ x) :
    checkShape s = .ok s := by
  simp only [checkShape]
  rw [if_neg (by simpa [List.isEmpty_iff] using hne),
    if_pos (by simpa [List.all_eq_true] using h)]

/-- A validated periodicity list has one entry per axis. -/
theorem checkPeriodic_ok_len {p : PeriodicInput} {dim : ℕ} {per : List Bool}
    (h : checkPeriodic p dim = .ok per) : per.length = dim := by
  cases p with
  | bool b => simp only [checkPeriodic, Except.ok.injEq] at h; simp [← h]
  | list l =>
    simp only [checkPeriodic] at h
    by_cases hl : l.length = dim
    · rw [if_pos hl] at h
      simp only [Except.ok.injEq] at h
      rw [← h]; exact hl
    · simp [hl] at h

/-- Rebuilding a successfully constructed Cartesian grid from its stored
bounds, shape and periodicity yields the same grid. -/
theorem mk_reconstruct {b : BoundsInput} {s : List ℕ} {p : PeriodicInput} {g : CartesianGrid}
    (h : mkCartesianGrid b s p = .ok g) :
    mkCartesianGrid (.nested (g.axes_bounds.map fun ab => [ab.1, ab.2])) g.shape
      (.list g.periodic) = .ok g := by
  obtain ⟨cub, shp0, per, hib, hcs, hcp, hrest⟩ := mk_ok_elim h
  simp only at hrest
  obtain ⟨hdim, hg⟩ := hrest
  obtain ⟨hlen, hnn⟩ := interpretBounds_ok_inv hib
  obtain ⟨hfst, hsnd⟩ := cuboid_bounds_proj cub hlen
  obtain ⟨hs0, hsne, hsall⟩ := checkShape_ok_inv hcs
  set shp := if shp0.length = 1 ∧ 1 < cub.pos.length then
      List.replicate cub.pos.length (shp0.headD 1) else shp0 with hshp
  have hgb : g.axes_bounds = cub.bounds := by rw [hg]; rfl
  have hgs : g.shape = shp := by rw [hg]; rfl
  have hgp : g.periodic = per := by rw [hg]; rfl
  have hib2 : interpretBounds (.nested (g.axes_bounds.map fun ab => [ab.1, ab.2]))
      = .ok cub := by
    rw [hgb, interpretBounds_nested_pairs, hfst, hsnd,
      Cuboid.init_eq_self cub.pos cub.size hlen hnn]
  have hshpall : ∀ x ∈ shp, 1 ≤ x := by
    rw [hshp]
    by_cases hc : shp0.length = 1 ∧ 1 < cub.pos.length
    · rw [if_pos hc]
      intro x hx
      rw [List.eq_of_mem_replicate hx]
      rcases shp0 with _ | ⟨a, t⟩
      · subst hs0; simp at hsne
      · exact hsall _ (by rw [← hs0]; simp [List.headD_cons])
    · rw [if_neg hc]; subst hs0; exact hsall
  have hshpne : shp ≠ [] := by
    intro hnil
    rw [hshp] at hnil
    by_cases hc : shp0.length = 1 ∧ 1 < cub.pos.length
    · rw [if_pos hc, List.replicate_eq_nil_iff] at hnil
      omega
    · rw [if_neg hc] at hnil
      subst hs0
      exact hsne hnil
  have hcs2 : checkShape g.shape = .ok shp := by
    rw [hgs]; exact checkShape_ok_self shp hshpne hshpall
  have hnb : ¬ (shp.length = 1 ∧ 1 < cub.pos.length) := by
    rw [hdim]; omega
  have hcp2 : checkPeriodic (.list g.periodic) cub.pos.length = .ok per := by
    rw [hgp]
    simp only [checkPeriodic]
    rw [if_pos (by rw [checkPeriodic_ok_len hcp])]
  unfold mkCartesianGrid
  rw [hib2, hcs2]
  simp only [hnb, if_false, if_pos hdim]
  rw [hcp2, hg]

/-- Zipping a replicated constant from the left is a map. -/
theorem zipWith_replicate_left {α β γ : Type} (f : α → β → γ) (c : α) (l : List β) :
    List.zipWith f (List.replicate l.length c) l = l.map (f c) := by
  induction l with
  | nil => simp
  | cons x xs ih => simp [List.replicate_succ, ih]

/-- Bounds of the form `(0, x)` are interpreted as a cuboid at the origin. -/
theorem interpretBounds_unit (q : List ℚ) :
    interpretBounds (.nested (q.map fun x => [(0 : ℚ), x])) =
      .ok (Cuboid.init (List.replicate q.length 0) q) := by
  cases q with
  | nil => simp [interpretBounds, Cuboid.init]
  | cons a t =>
    have h2 : ((a :: t).map fun x => ([0, x] : List ℚ)).all
        (fun r => r.length = 2) = true := by
      simp only [List.all_eq_true, List.mem_map]
      rintro r ⟨x, _, rfl⟩
      simp
    have h1 : ((a :: t).map fun x => ([0, x] : List ℚ)).all
        (fun r => r.length = 1) = false := by
      simp
    simp only [interpretBounds, List.map_cons, List.isEmpty_cons, Bool.false_eq_true,
      if_false] at h1 h2 ⊢
    rw [h1, h2]
    simp [Cuboid.init, List.map_map, Function.comp, List.replicate_succ,
      zipWith_replicate_left]

/-- Bounds of the unit-grid form over natural cell counts. -/
theorem interpretBounds_unitOfNat (u : List ℕ) :
    interpretBounds (.nested (u.map fun (n : ℕ) => [(0 : ℚ), (n : ℚ)])) =
      .ok (Cuboid.init (List.replicate u.length 0) (u.map fun (n : ℕ) => (n : ℚ))) := by
  have h := interpretBounds_unit (u.map fun (n : ℕ) => (n : ℚ))
  rw [List.map_map] at h
  simpa only [Function.comp_def, List.length_map] using h

/-- Rebuilding a successfully constructed unit grid from its stored shape
and periodicity yields the same grid. -/
theorem mkUnitGrid_reconstruct {s : List ℕ} {p : PeriodicInput} {g : CartesianGrid}
    (h : mkUnitGrid s p = .ok g) :
    mkUnitGrid g.shape (.list g.periodic) = .ok g := by
  unfold mkUnitGrid at h ⊢
  cases hin : mkCartesianGrid (.nested (s.map fun (n : ℕ) => [(0 : ℚ), (n : ℚ)])) s p with
  | error e => rw [hin] at h; exact absurd h (by simp)
  | ok g0 =>
    rw [hin] at h
    simp only [Except.ok.injEq] at h
    have hg : g = unitOverride g0 := h.symm
    have hgs : g.shape = g0.shape := by rw [hg]; rfl
    have hgp : g.periodic = g0.periodic := by rw [hg]; rfl
    obtain ⟨cub, shp0, per, hib, hcs, hcp, hrest⟩ := mk_ok_elim hin
    simp only at hrest
    obtain ⟨hdim, hg0⟩ := hrest
    obtain ⟨hs0, hsne, hsall⟩ := checkShape_ok_inv hcs
    subst hs0
    have hcub : cub = Cuboid.init (List.replicate shp0.length 0)
        (shp0.map fun (n : ℕ) => (n : ℚ)) := by
      rw [interpretBounds_unitOfNat shp0] at hib
      simpa using hib.symm
    have hcublen : cub.pos.length = shp0.length := by
      rw [hcub]
      simp [Cuboid.init]
    have hnb : ¬ (shp0.length = 1 ∧ 1 < cub.pos.length) := by
      rw [hcublen]
      omega
    have hshp : (if shp0.length = 1 ∧ 1 < cub.pos.length then
        List.replicate cub.pos.length (shp0.headD 1) else shp0) = shp0 := by
      rw [if_neg hnb]
    rw [hshp] at hg0 hdim
    have hg0s : g0.shape = shp0 := by rw [hg0]; rfl
    have hg0p : g0.periodic = per := by rw [hg0]; rfl
    have hmk2 : mkCartesianGrid (.nested (g0.shape.map fun (n : ℕ) => [(0 : ℚ), (n : ℚ)]))
        g0.shape (.list g0.periodic) = .ok g0 := by
      unfold mkCartesianGrid
      rw [hg0s, hg0p, interpretBounds_unitOfNat shp0, ← hcub, hcs]
      simp only [hnb, if_false, hshp, if_pos hdim]
      have hcp2 : checkPeriodic (.list per) cub.pos.length = .ok per := by
        simp only [checkPeriodic]
        rw [if_pos (checkPeriodic_ok_len hcp)]
      rw [hcp2, hg0]
    rw [hgs, hgp, hmk2, hg]

/-- Zipping positions with sizes recovers the original bound pairs. -/
theorem bounds_zip_pairs (bds : List (ℚ × ℚ)) :
    List.zipWith (fun p s => (p, p + s)) (bds.map Prod.fst)
      (bds.map fun ab => ab.2 - ab.1) = bds := by
  induction bds with
  | nil => simp
  | cons a t ih =>
    obtain ⟨x, y⟩ := a
    have hx : x + (y - x) = y := by ring
    simp [ih, hx]

/-- The bounds interpretation errors exactly on ambiguous or
uninterpretable inputs. -/
theorem interpretBounds_error_iff (b : BoundsInput) :
    (∃ e, interpretBounds b = .error e) ↔ boundsAmbiguous b ∨ boundsUninterpretable b := by
  cases b with
  | flat vals =>
    simp only [interpretBounds, boundsAmbiguous, boundsUninterpretable, or_false]
    by_cases h : vals.length = 2
    · simp [h]
    · simp [h]
  | nested rows =>
    simp only [interpretBounds, boundsAmbiguous, boundsUninterpretable, false_or]
    by_cases he : rows.isEmpty
    · have : rows = [] := by simpa [List.isEmpty_iff] using he
      simp [he, this]
    · have hne : rows ≠ [] := by simpa [List.isEmpty_iff] using he
      rw [if_neg he]
      by_cases h1 : rows.all fun r => r.length = 1
      · simp only [if_pos h1]
        simp only [List.all_eq_true, decide_eq_true_eq] at h1
        constructor
        · rintro ⟨e, he2⟩
          exact absurd he2 (by simp)
        · rintro ⟨_, hc, _⟩
          exact absurd h1 hc
      · rw [if_neg h1]
        simp only [List.all_eq_true, decide_eq_true_eq] at h1
        by_cases h2 : rows.all fun r => r.length = 2
        · simp only [if_pos h2]
          simp only [List.all_eq_true, decide_eq_true_eq] at h2
          constructor
          · rintro ⟨e, he2⟩
            exact absurd he2 (by simp)
          · rintro ⟨_, _, hc⟩
            exact absurd h2 hc
        · rw [if_neg h2]
          simp only [List.all_eq_true, decide_eq_true_eq] at h2
          constructor
          · intro _
            exact ⟨hne, h1, h2⟩
          · intro _
            exact ⟨_, rfl⟩

/-- A successfully interpreted bounds input fixes the grid dimension. -/
theorem interpretBounds_ok_dim {b : BoundsInput} {cub : Cuboid}
    (h : interpretBounds b = .ok cub) : cub.pos.length = boundsDim b := by
  cases b with
  | flat vals =>
    simp only [interpretBounds, boundsDim] at h ⊢
    by_cases h2 : vals.length = 2
    · simp [h2] at h
    · rw [if_neg h2] at h
      simp only [Except.ok.injEq] at h
      rw [← h]
      simp [Cuboid.init]
  | nested rows =>
    simp only [interpretBounds, boundsDim] at h ⊢
    by_cases he : rows.isEmpty
    · rw [if_pos he] at h
      simp only [Except.ok.injEq] at h
      rw [← h]
      simp only [Cuboid.init]
      simp [List.isEmpty_iff.mp he]
    · rw [if_neg he] at h
      by_cases h1 : rows.all fun r => r.length = 1
      · rw [if_pos h1] at h
        simp only [Except.ok.injEq] at h
        rw [← h]
        simp [Cuboid.init]
      · rw [if_neg h1] at h
        by_cases h2 : rows.all fun r => r.length = 2
        · rw [if_pos h2] at h
          simp only [Except.ok.injEq] at h
          rw [← h]
          simp [Cuboid.init]
        · simp [h2] at h

theorem sysMatrix_mulVec (c : ι → ι → ℚ) (p w : ι → ℚ) (u : ι → ℚ) :
    (sysMatrix c p w) *ᵥ u = opL c p w u := by
  funext i
  simp only [sysMatrix, opL, Matrix.mulVec, Matrix.dotProduct, Matrix.of_apply]
  rw [Finset.sum_congr rfl (fun j _ => by rw [div_mul_eq_mul_div]), ← Finset.sum_div]
  congr 1
  have hsplit : ∀ j, (c i j - if j = i then ((∑ k, c i k) + p i) else 0) * u j
      = c i j * u j - (if j = i then ((∑ k, c i k) + p i) * u j else 0) := by
    intro j
    split_ifs <;> ring
  rw [Finset.sum_congr rfl (fun j _ => hsplit j), Finset.sum_sub_distrib,
    Finset.sum_ite_eq' (Finset.univ : Finset ι) i fun j => ((∑ k, c i k) + p i) * u j]
  simp only [Finset.mem_univ, if_true]
  have h2 : (∑ j, c i j * (u j - u i)) = (∑ j, c i j * u j) - (∑ j, c i j) * u i := by
    rw [Finset.sum_mul, ← Finset.sum_sub_distrib]
    exact Finset.sum_congr rfl fun j _ => by ring
  rw [h2]
  ring

theorem cramerSolve_solves {A : Matrix ι ι ℚ} (hdet : A.det ≠ 0) (b : ι → ℚ) :
    A *ᵥ (cramerSolve A b) = b := by
  have h : cramerSolve A b = (A.det)⁻¹ • (A.cramer b) := by
    funext i
    simp [cramerSolve]
  rw [h, Matrix.mulVec_smul, Matrix.mulVec_cramer]
  funext i
  simp only [Pi.smul_apply, smul_eq_mul]
  rw [← mul_assoc, inv_mul_cancel₀ hdet, one_mul]

theorem det_ne_zero_of_ker {A : Matrix ι ι ℚ} (h : ∀ v, A *ᵥ v = 0 → v = 0) :
    A.det ≠ 0 := by
  intro hdet
  obtain ⟨v, hv0, hv⟩ := (Matrix.exists_mulVec_eq_zero_iff).mpr hdet
  exact hv0 (h v hv)


/-- Weighted sum of the operator output telescopes to the penalty terms. -/
theorem sum_w_opL (c : ι → ι → ℚ) (p w : ι → ℚ) (hsymm : ∀ i j, c i j = c j i)
    (hw : ∀ i, w i ≠ 0) (u : ι → ℚ) :
    ∑ i, w i * opL c p w u i = -∑ i, p i * u i := by
  have hterm : ∀ i, w i * opL c p w u i = (∑ j, c i j * (u j - u i)) - p i * u i := by
    intro i
    rw [opL, mul_comm, div_mul_cancel₀ _ (hw i)]
  rw [Finset.sum_congr rfl fun i _ => hterm i, Finset.sum_sub_distrib]
  have h1 : (∑ i, ∑ j, c i j * (u j - u i)) = ∑ i, ∑ j, c i j * (u i - u j) := by
    rw [Finset.sum_comm]
    exact Finset.sum_congr rfl fun a _ => Finset.sum_congr rfl fun b _ => by rw [hsymm b a]
  have h2 : (∑ i, ∑ j, c i j * (u j - u i)) + (∑ i, ∑ j, c i j * (u i - u j)) = 0 := by
    rw [← Finset.sum_add_distrib]
    refine Finset.sum_eq_zero fun i _ => ?_
    rw [← Finset.sum_add_distrib]
    exact Finset.sum_eq_zero fun j _ => by ring
  have h0 : (∑ i, ∑ j, c i j * (u j - u i)) = 0 := by linarith
  rw [h0, zero_sub]

/-- Discrete Green identity: the quadratic form of the conductance part is
a negative sum of squared differences. -/
theorem green_quad (c : ι → ι → ℚ) (hsymm : ∀ i j, c i j = c j i) (v : ι → ℚ) :
    2 * (∑ i, v i * (∑ j, c i j * (v j - v i))) = -(∑ i, ∑ j, c i j * (v i - v j)^2) := by
  have hmul : ∀ i, v i * (∑ j, c i j * (v j - v i)) = ∑ j, c i j * (v i * (v j - v i)) := by
    intro i
    rw [Finset.mul_sum]
    exact Finset.sum_congr rfl fun j _ => by ring
  rw [Finset.sum_congr rfl fun i _ => hmul i]
  have h1 : (∑ i, ∑ j, c i j * (v i * (v j - v i)))
      = ∑ i, ∑ j, c i j * (v j * (v i - v j)) := by
    rw [Finset.sum_comm]
    exact Finset.sum_congr rfl fun a _ => Finset.sum_congr rfl fun b _ => by rw [hsymm b a]
  have hpt : ∀ i, (∑ j, c i j * (v i * (v j - v i))) + (∑ j, c i j * (v j * (v i - v j)))
      = -∑ j, c i j * (v i - v j)^2 := by
    intro i
    rw [← Finset.sum_add_distrib, ← Finset.sum_neg_distrib]
    exact Finset.sum_congr rfl fun j _ => by ring
  rw [two_mul]
  nth_rewrite 2 [h1]
  rw [← Finset.sum_add_distrib, Finset.sum_congr rfl fun i _ => hpt i,
    ← Finset.sum_neg_distrib]

/-- A field annihilated by the operator is constant along nonzero conductances
and vanishes wherever a penalty is active. -/
theorem opL_ker_structure (c : ι → ι → ℚ) (p w : ι → ℚ) (hsymm : ∀ i j, c i j = c j i)
    (hcnn : ∀ i j, 0 ≤ c i j) (hpnn : ∀ i, 0 ≤ p i) (hw : ∀ i, w i ≠ 0)
    (v : ι → ℚ) (hv : ∀ i, opL c p w v i = 0) :
    (∀ i j, c i j ≠ 0 → v i = v j) ∧ (∀ i, p i ≠ 0 → v i = 0) := by
  have hnum : ∀ i, (∑ j, c i j * (v j - v i)) = p i * v i := by
    intro i
    have h0 := hv i
    rw [opL, div_eq_zero_iff] at h0
    rcases h0 with h0 | h0
    · linarith [h0]
    · exact absurd h0 (hw i)
  have hTP : (∑ i, v i * (∑ j, c i j * (v j - v i))) = ∑ i, p i * v i ^ 2 := by
    refine Finset.sum_congr rfl fun i _ => ?_
    rw [hnum i]
    ring
  have hG := green_quad c hsymm v
  rw [hTP] at hG
  have hA : (0:ℚ) ≤ ∑ i, ∑ j, c i j * (v i - v j)^2 :=
    Finset.sum_nonneg fun i _ => Finset.sum_nonneg fun j _ => mul_nonneg (hcnn i j) (sq_nonneg _)
  have hB : (0:ℚ) ≤ ∑ i, p i * v i ^ 2 :=
    Finset.sum_nonneg fun i _ => mul_nonneg (hpnn i) (sq_nonneg _)
  have hA0 : (∑ i, ∑ j, c i j * (v i - v j)^2) = 0 := by linarith
  have hB0 : (∑ i, p i * v i ^ 2) = 0 := by linarith
  constructor
  · intro i j hcij
    have h1 := (Finset.sum_eq_zero_iff_of_nonneg
      (fun a _ => Finset.sum_nonneg fun b _ => mul_nonneg (hcnn a b) (sq_nonneg _))).mp
      hA0 i (Finset.mem_univ i)
    have h2 := (Finset.sum_eq_zero_iff_of_nonneg
      (fun b _ => mul_nonneg (hcnn i b) (sq_nonneg _))).mp h1 j (Finset.mem_univ j)
    rcases mul_eq_zero.mp h2 with h3 | h3
    · exact absurd h3 hcij
    · have h4 : v i - v j = 0 := by
        have := (pow_eq_zero_iff (two_ne_zero)).mp h3
        exact this
      linarith
  · intro i hpi
    have h1 := (Finset.sum_eq_zero_iff_of_nonneg
      (fun a _ => mul_nonneg (hpnn a) (sq_nonneg _))).mp hB0 i (Finset.mem_univ i)
    rcases mul_eq_zero.mp h1 with h2 | h2
    · exact absurd h2 hpi
    · exact (pow_eq_zero_iff (two_ne_zero)).mp h2

/-- A field constant across nonzero conductances is constant along chains of them. -/
theorem reach_const (c : ι → ι → ℚ) (v : ι → ℚ) (hk : ∀ i j, c i j ≠ 0 → v i = v j)
    (i j : ι) (h : Relation.ReflTransGen (fun a b => c a b ≠ 0) i j) : v i = v j := by
  induction h with
  | refl => rfl
  | tail _ hbc ih => exact ih.trans (hk _ _ hbc)

/-- With a connected conductance graph and at least one active penalty the
operator has a trivial kernel. -/
theorem ker_trivial_pinned (c : ι → ι → ℚ) (p w : ι → ℚ) (hsymm : ∀ i j, c i j = c j i)
    (hcnn : ∀ i j, 0 ≤ c i j) (hpnn : ∀ i, 0 ≤ p i) (hw : ∀ i, w i ≠ 0)
    (hconn : Conn c) (i0 : ι) (hp0 : p i0 ≠ 0) :
    ∀ v, (∀ i, opL c p w v i = 0) → v = 0 := by
  intro v hv
  obtain ⟨hedge, hpen⟩ := opL_ker_structure c p w hsymm hcnn hpnn hw v hv
  funext i
  have h1 : v i = v i0 := reach_const c v hedge i i0 (hconn i i0)
  simp only [Pi.zero_apply]
  rw [h1]
  exact hpen i0 hp0

theorem deflate_mulVec (w : ι → ℚ) (v : ι → ℚ) (i : ι) :
    (deflate w *ᵥ v) i = ∑ j, w j * v j := by
  simp [deflate, Matrix.mulVec, Matrix.dotProduct]

/-- With a connected conductance graph, no penalties and positive weights,
the deflated system matrix has a trivial kernel. -/
theorem ker_trivial_deflated [Nonempty ι] (c : ι → ι → ℚ) (p w : ι → ℚ)
    (hsymm : ∀ i j, c i j = c j i) (hcnn : ∀ i j, 0 ≤ c i j) (hwpos : ∀ i, 0 < w i)
    (hconn : Conn c) (hpz : ∀ i, p i = 0) :
    ∀ v, (sysMatrix c p w + deflate w) *ᵥ v = 0 → v = 0 := by
  intro v hv
  have hw : ∀ i, w i ≠ 0 := fun i => ne_of_gt (hwpos i)
  have hsplit : ∀ i, opL c p w v i + (∑ j, w j * v j) = 0 := by
    intro i
    have h0 := congrFun hv i
    rw [Matrix.add_mulVec, Pi.add_apply, deflate_mulVec,
      show (sysMatrix c p w *ᵥ v) i = opL c p w v i from
        congrFun (sysMatrix_mulVec c p w v) i] at h0
    exact h0
  have hsum := sum_w_opL c p w hsymm hw v
  have hps : (∑ i, p i * v i) = 0 := Finset.sum_eq_zero fun i _ => by rw [hpz i, zero_mul]
  rw [hps, neg_zero] at hsum
  have h3 : (∑ i, w i * opL c p w v i) = -(∑ j, w j * v j) * (∑ i, w i) := by
    rw [Finset.sum_congr rfl fun i _ => show w i * opL c p w v i
        = w i * (-(∑ j, w j * v j)) from by rw [show opL c p w v i
          = -(∑ j, w j * v j) from by linarith [hsplit i]]]
    rw [← Finset.sum_mul]
    ring
  have hwsum : (0:ℚ) < ∑ i, w i := Finset.sum_pos (fun i _ => hwpos i) Finset.univ_nonempty
  have hs0 : (∑ j, w j * v j) = 0 := by
    rw [h3] at hsum
    rcases mul_eq_zero.mp hsum with h4 | h4
    · linarith [h4]
    · exact absurd h4 (ne_of_gt hwsum)
  have hopL0 : ∀ i, opL c p w v i = 0 := fun i => by linarith [hsplit i, hs0]
  obtain ⟨hedge, _⟩ := opL_ker_structure c p w hsymm hcnn
    (fun i => le_of_eq (hpz i).symm) hw v hopL0
  have i0 : ι := Classical.arbitrary ι
  have hconst : ∀ i, v i = v i0 := fun i => reach_const c v hedge i i0 (hconn i i0)
  have h5 : (∑ j, w j * v j) = (∑ j, w j) * v i0 := by
    rw [Finset.sum_congr rfl fun j _ => show w j * v j = w j * v i0 from by rw [hconst j],
      ← Finset.sum_mul]
  have h6 : v i0 = 0 := by
    rw [h5] at hs0
    rcases mul_eq_zero.mp hs0 with h7 | h7
    · exact absurd h7 (ne_of_gt hwsum)
    · exact h7
  funext i
  simp only [Pi.zero_apply]
  rw [hconst i, h6]

theorem solveSystem_sound (c : ι → ι → ℚ) (p w : ι → ℚ) (f u : ι → ℚ)
    (h : solveSystem c p w f = Except.ok u) : ∀ i, opL c p w u i = f i := by
  unfold solveSystem at h
  split_ifs at h with hc
  · cases h
    exact hc

theorem solveSystem_exact_pinned (c : ι → ι → ℚ) (p w : ι → ℚ)
    (hsymm : ∀ i j, c i j = c j i) (hcnn : ∀ i j, 0 ≤ c i j) (hpnn : ∀ i, 0 ≤ p i)
    (hw : ∀ i, w i ≠ 0) (hconn : Conn c) (i0 : ι) (hp0 : p i0 ≠ 0) (f : ι → ℚ) :
    ∃ u, solveSystem c p w f = Except.ok u ∧ ∀ i, opL c p w u i = f i := by
  have hker : ∀ v, sysMatrix c p w *ᵥ v = 0 → v = 0 := by
    intro v hv
    rw [sysMatrix_mulVec] at hv
    exact ker_trivial_pinned c p w hsymm hcnn hpnn hw hconn i0 hp0 v
      fun i => congrFun hv i
  have hdet := det_ne_zero_of_ker hker
  have hsol := cramerSolve_solves hdet f
  rw [sysMatrix_mulVec] at hsol
  have hpz : ¬ (∀ i, p i = 0) := fun hall => hp0 (hall i0)
  have hcand : solveCandidate c p w f = cramerSolve (sysMatrix c p w) f := by
    unfold solveCandidate
    rw [if_neg hpz]
  have hok : ∀ i, opL c p w (solveCandidate c p w f) i = f i := by
    intro i
    rw [hcand]
    exact congrFun hsol i
  refine ⟨solveCandidate c p w f, ?_, hok⟩
  unfold solveSystem
  rw [if_pos hok]

theorem solveSystem_exact_balanced [Nonempty ι] (c : ι → ι → ℚ) (p w : ι → ℚ)
    (hsymm : ∀ i j, c i j = c j i) (hcnn : ∀ i j, 0 ≤ c i j) (hwpos : ∀ i, 0 < w i)
    (hconn : Conn c) (hpz : ∀ i, p i = 0) (f : ι → ℚ) (hf : ∑ i, w i * f i = 0) :
    ∃ u, solveSystem c p w f = Except.ok u ∧ ∀ i, opL c p w u i = f i := by
  have hker := ker_trivial_deflated c p w hsymm hcnn hwpos hconn hpz
  have hdet := det_ne_zero_of_ker hker
  have hsol := cramerSolve_solves hdet f
  have hw : ∀ i, w i ≠ 0 := fun i => ne_of_gt (hwpos i)
  have hcomp : ∀ i, opL c p w (cramerSolve (sysMatrix c p w + deflate w) f) i
      + (∑ j, w j * cramerSolve (sysMatrix c p w + deflate w) f j)
      = f i := by
    intro i
    have h0 := congrFun hsol i
    rw [Matrix.add_mulVec, Pi.add_apply, deflate_mulVec,
      show (sysMatrix c p w *ᵥ cramerSolve (sysMatrix c p w + deflate w) f) i
        = opL c p w (cramerSolve (sysMatrix c p w + deflate w) f) i from
        congrFun (sysMatrix_mulVec c p w _) i] at h0
    exact h0
  have hsum := sum_w_opL c p w hsymm hw (cramerSolve (sysMatrix c p w + deflate w) f)
  have hps : (∑ i, p i * cramerSolve (sysMatrix c p w + deflate w) f i) = 0 :=
    Finset.sum_eq_zero fun i _ => by rw [hpz i, zero_mul]
  rw [hps, neg_zero] at hsum
  have hwsum : (0:ℚ) < ∑ i, w i := Finset.sum_pos (fun i _ => hwpos i) Finset.univ_nonempty
  have h4 : (∑ i, w i * opL c p w (cramerSolve (sysMatrix c p w + deflate w) f) i)
      = (∑ i, w i * f i)
        - (∑ j, w j * cramerSolve (sysMatrix c p w + deflate w) f j) * (∑ i, w i) := by
    rw [Finset.sum_congr rfl fun i _ => show
        w i * opL c p w (cramerSolve (sysMatrix c p w + deflate w) f) i
        = w i * f i - w i * (∑ j, w j * cramerSolve (sysMatrix c p w + deflate w) f j)
        from by
          rw [show opL c p w (cramerSolve (sysMatrix c p w + deflate w) f) i
            = f i - (∑ j, w j * cramerSolve (sysMatrix c p w + deflate w) f j)
            from by linarith [hcomp i]]
          ring]
    rw [Finset.sum_sub_distrib, ← Finset.sum_mul]
    ring
  have hs0 : (∑ j, w j * cramerSolve (sysMatrix c p w + deflate w) f j) = 0 := by
    rw [h4, hf] at hsum
    rcases mul_eq_zero.mp (by linarith [hsum] :
        (∑ j, w j * cramerSolve (sysMatrix c p w + deflate w) f j) * (∑ i, w i) = 0)
      with h5 | h5
    · exact h5
    · exact absurd h5 (ne_of_gt hwsum)
  have hcand : solveCandidate c p w f = cramerSolve (sysMatrix c p w + deflate w) f := by
    unfold solveCandidate
    rw [if_pos hpz]
  have hok : ∀ i, opL c p w (solveCandidate c p w f) i = f i := by
    intro i
    rw [hcand]
    linarith [hcomp i, hs0]
  refine ⟨solveCandidate c p w f, ?_, hok⟩
  unfold solveSystem
  rw [if_pos hok]

theorem solveSystem_error_unbalanced (c : ι → ι → ℚ) (p w : ι → ℚ)
    (hsymm : ∀ i j, c i j = c j i) (hw : ∀ i, w i ≠ 0) (hpz : ∀ i, p i = 0)
    (f : ι → ℚ) (hf : ∑ i, w i * f i ≠ 0) :
    solveSystem c p w f = Except.error singularMsg
      ∧ ¬ ∃ u, ∀ i, opL c p w u i = f i := by
  have hno : ¬ ∃ u, ∀ i, opL c p w u i = f i := by
    rintro ⟨u, hu⟩
    have hsum := sum_w_opL c p w hsymm hw u
    have hps : (∑ i, p i * u i) = 0 := Finset.sum_eq_zero fun i _ => by rw [hpz i, zero_mul]
    rw [hps, neg_zero] at hsum
    apply hf
    rw [Finset.sum_congr rfl fun i _ => show w i * f i = w i * opL c p w u i from by
      rw [hu i]]
    exact hsum
  have hcond : ¬ (∀ i, opL c p w (solveCandidate c p w f) i = f i) :=
    fun hc => hno ⟨solveCandidate c p w f, hc⟩
  constructor
  · unfold solveSystem
    rw [if_neg hcond]
  · exact hno

theorem sideGhost_sub (b : SideBC) (x : ℚ) : sideGhost b x - x = -(sidePen b) * x := by
  cases b <;> simp [sideGhost, sidePen] <;> ring

theorem sidePen_nonneg (b : SideBC) : 0 ≤ sidePen b := by
  cases b <;> norm_num [sidePen]

theorem axisCond_symm (n : ℕ) (bc : AxisBC) (s t : Fin n) :
    axisCond n bc s t = axisCond n bc t s := by
  cases bc <;> simp [axisCond] <;> ring

theorem axisCond_nonneg (n : ℕ) (bc : AxisBC) (s t : Fin n) :
    0 ≤ axisCond n bc s t := by
  cases bc <;> simp only [axisCond] <;> split_ifs <;> norm_num

theorem axisPen_nonneg (n : ℕ) (bc : AxisBC) (t : Fin n) :
    0 ≤ axisPen n bc t := by
  cases bc
  · simp [axisPen]
  · simp only [axisPen]
    apply add_nonneg <;> split_ifs <;> first | exact sidePen_nonneg _ | norm_num

/-- A sum of a singly supported indicator picks out the indicated entry. -/
theorem sum_ite_val (n m : ℕ) (g : Fin n → ℚ) :
    (∑ s : Fin n, if s.val = m then g s else 0) = if h : m < n then g ⟨m, h⟩ else 0 := by
  split_ifs with h
  · rw [Finset.sum_eq_single (⟨m, h⟩ : Fin n)]
    · simp
    · intro b _ hb
      rw [if_neg]
      intro hbv
      exact hb (Fin.ext hbv)
    · intro hm
      exact absurd (Finset.mem_univ _) hm
  · apply Finset.sum_eq_zero
    intro s _
    rw [if_neg]
    intro hs
    exact h (hs ▸ s.isLt)

/-- The axis stencil agrees with its conductance/penalty graph form. -/
theorem axisSecondDiff_eq (n : ℕ) (bc : AxisBC) (v : Fin n → ℚ) (t : Fin n) :
    axisSecondDiff n bc v t
      = (∑ s, axisCond n bc t s * (v s - v t)) - axisPen n bc t * v t := by
  have htlt := t.isLt
  have hS1 : (∑ s : Fin n, if s.val = t.val + 1 then v s - v t else 0)
      = if h : t.val + 1 < n then v ⟨t.val + 1, h⟩ - v t else 0 := by
    simp only [sum_ite_val]
  have hS2 : (∑ s : Fin n, if t.val = s.val + 1 then v s - v t else 0)
      = if t.val = 0 then 0 else v ⟨t.val - 1, by omega⟩ - v t := by
    by_cases ht0 : t.val = 0
    · rw [if_pos ht0]
      exact Finset.sum_eq_zero fun s _ => if_neg (by omega)
    · rw [if_neg ht0]
      have hconv : ∀ s : Fin n, (if t.val = s.val + 1 then v s - v t else 0)
          = (if s.val = t.val - 1 then v s - v t else 0) := by
        intro s
        by_cases h1 : t.val = s.val + 1
        · rw [if_pos h1, if_pos (by omega)]
        · rw [if_neg h1, if_neg (by omega)]
      rw [Finset.sum_congr rfl fun s _ => hconv s]
      simp only [sum_ite_val]
      rw [dif_pos (by omega : t.val - 1 < n)]
  have hS3 : (∑ s : Fin n, if t.val = 0 ∧ s.val + 1 = n then v s - v t else 0)
      = if t.val = 0 then v ⟨n - 1, by omega⟩ - v t else 0 := by
    by_cases ht0 : t.val = 0
    · rw [if_pos ht0]
      have hconv : ∀ s : Fin n, (if t.val = 0 ∧ s.val + 1 = n then v s - v t else 0)
          = (if s.val = n - 1 then v s - v t else 0) := by
        intro s
        have hslt := s.isLt
        by_cases h1 : t.val = 0 ∧ s.val + 1 = n
        · rw [if_pos h1, if_pos (by omega)]
        · rw [if_neg h1, if_neg (by omega)]
      rw [Finset.sum_congr rfl fun s _ => hconv s]
      simp only [sum_ite_val]
      rw [dif_pos (by omega : n - 1 < n)]
    · rw [if_neg ht0]
      exact Finset.sum_eq_zero fun s _ => if_neg (by omega)
  have hS4 : (∑ s : Fin n, if s.val = 0 ∧ t.val + 1 = n then v s - v t else 0)
      = if t.val + 1 = n then v ⟨0, by omega⟩ - v t else 0 := by
    by_cases htn : t.val + 1 = n
    · rw [if_pos htn]
      have hconv : ∀ s : Fin n, (if s.val = 0 ∧ t.val + 1 = n then v s - v t else 0)
          = (if s.val = 0 then v s - v t else 0) := by
        intro s
        by_cases h1 : s.val = 0
        · rw [if_pos ⟨h1, htn⟩, if_pos h1]
        · rw [if_neg (by omega), if_neg h1]
      rw [Finset.sum_congr rfl fun s _ => hconv s]
      simp only [sum_ite_val]
      rw [dif_pos (by omega : 0 < n)]
    · rw [if_neg htn]
      exact Finset.sum_eq_zero fun s _ => if_neg (by omega)
  cases bc with
  | periodic =>
    have hsum : (∑ s, axisCond n AxisBC.periodic t s * (v s - v t))
        = (∑ s : Fin n, if s.val = t.val + 1 then v s - v t else 0)
          + (∑ s : Fin n, if t.val = s.val + 1 then v s - v t else 0)
          + ((∑ s : Fin n, if t.val = 0 ∧ s.val + 1 = n then v s - v t else 0)
            + (∑ s : Fin n, if s.val = 0 ∧ t.val + 1 = n then v s - v t else 0)) := by
      rw [← Finset.sum_add_distrib, ← Finset.sum_add_distrib, ← Finset.sum_add_distrib]
      refine Finset.sum_congr rfl fun s _ => ?_
      simp only [axisCond]
      split_ifs <;> ring
    rw [hsum, hS1, hS2, hS3, hS4]
    simp only [axisSecondDiff, axisPen]
    by_cases ht0 : t.val = 0 <;> by_cases htn : t.val + 1 < n
    · rw [if_pos ht0, dif_pos htn, dif_pos htn, if_pos ht0, if_pos ht0,
        if_neg (by omega : ¬ t.val + 1 = n)]
      ring
    · rw [if_pos ht0, dif_neg htn, dif_neg htn, if_pos ht0, if_pos ht0,
        if_pos (by omega : t.val + 1 = n)]
      ring
    · rw [if_neg ht0, dif_pos htn, dif_pos htn, if_neg ht0, if_neg ht0,
        if_neg (by omega : ¬ t.val + 1 = n)]
      ring
    · rw [if_neg ht0, dif_neg htn, dif_neg htn, if_neg ht0, if_neg ht0,
        if_pos (by omega : t.val + 1 = n)]
      ring
  | sides bl bh =>
    have hsum : (∑ s, axisCond n (AxisBC.sides bl bh) t s * (v s - v t))
        = (∑ s : Fin n, if s.val = t.val + 1 then v s - v t else 0)
          + (∑ s : Fin n, if t.val = s.val + 1 then v s - v t else 0) := by
      rw [← Finset.sum_add_distrib]
      refine Finset.sum_congr rfl fun s _ => ?_
      simp only [axisCond]
      split_ifs <;> ring
    rw [hsum, hS1, hS2]
    simp only [axisSecondDiff, axisPen]
    by_cases ht0 : t.val = 0 <;> by_cases htn : t.val + 1 < n
    · rw [if_pos ht0, dif_pos htn, dif_pos htn, if_pos ht0, if_pos ht0,
        if_neg (by omega : ¬ t.val + 1 = n)]
      linear_combination sideGhost_sub bl (v t)
    · rw [if_pos ht0, dif_neg htn, dif_neg htn, if_pos ht0, if_pos ht0,
        if_pos (by omega : t.val + 1 = n)]
      linear_combination sideGhost_sub bl (v t) + sideGhost_sub bh (v t)
    · rw [if_neg ht0, dif_pos htn, dif_pos htn, if_neg ht0, if_neg ht0,
        if_neg (by omega : ¬ t.val + 1 = n)]
      ring
    · rw [if_neg ht0, dif_neg htn, dif_neg htn, if_neg ht0, if_neg ht0,
        if_pos (by omega : t.val + 1 = n)]
      linear_combination sideGhost_sub bh (v t)

theorem axisVolW_pos (d : ℕ) (dx : Fin d → ℚ) (hdx : ∀ m, dx m ≠ 0) (k : Fin d) :
    0 < axisVolW d dx k := by
  refine Finset.prod_pos fun m _ => ?_
  split_ifs
  · norm_num
  · have := hdx m
    positivity

theorem axisVolW_nonneg (d : ℕ) (dx : Fin d → ℚ) (k : Fin d) :
    0 ≤ axisVolW d dx k := by
  refine Finset.prod_nonneg fun m _ => ?_
  split_ifs
  · norm_num
  · positivity

theorem cartVol_pos (d : ℕ) (dx : Fin d → ℚ) (hdx : ∀ m, dx m ≠ 0) :
    0 < cartVol d dx := by
  refine Finset.prod_pos fun m _ => ?_
  have := hdx m
  positivity

theorem cartVol_factor (d : ℕ) (dx : Fin d → ℚ) (k : Fin d) :
    cartVol d dx = (dx k)^2 * axisVolW d dx k := by
  rw [cartVol, ← Finset.mul_prod_erase Finset.univ _ (Finset.mem_univ k)]
  congr 1
  rw [axisVolW, ← Finset.mul_prod_erase Finset.univ _ (Finset.mem_univ k), if_pos rfl,
    one_mul]
  exact (Finset.prod_congr rfl fun m hm => by
    rw [if_neg (Finset.ne_of_mem_erase hm)]).symm

theorem cartCond_symm (d : ℕ) (n : Fin d → ℕ) (dx : Fin d → ℚ) (bc : Fin d → AxisBC)
    (i j : ∀ k, Fin (n k)) : cartCond d n dx bc i j = cartCond d n dx bc j i := by
  refine Finset.sum_congr rfl fun k _ => ?_
  by_cases h : ∀ m, m ≠ k → i m = j m
  · rw [if_pos h, if_pos fun m hm => (h m hm).symm, axisCond_symm]
  · rw [if_neg h, if_neg fun h2 => h fun m hm => (h2 m hm).symm]

theorem cartCond_nonneg (d : ℕ) (n : Fin d → ℕ) (dx : Fin d → ℚ) (bc : Fin d → AxisBC)
    (i j : ∀ k, Fin (n k)) : 0 ≤ cartCond d n dx bc i j := by
  refine Finset.sum_nonneg fun k _ => ?_
  split_ifs
  · exact mul_nonneg (axisCond_nonneg _ _ _ _) (axisVolW_nonneg _ _ _)
  · exact le_refl 0

theorem cartPen_nonneg (d : ℕ) (n : Fin d → ℕ) (dx : Fin d → ℚ) (bc : Fin d → AxisBC)
    (i : ∀ k, Fin (n k)) : 0 ≤ cartPen d n dx bc i :=
  Finset.sum_nonneg fun k _ =>
    mul_nonneg (axisPen_nonneg _ _ _) (axisVolW_nonneg _ _ _)

/-- The Cartesian stencil agrees with its conductance/penalty graph form. -/
theorem LaplacianD_eq_opL (d : ℕ) (n : Fin d → ℕ) (dx : Fin d → ℚ) (bc : Fin d → AxisBC)
    (hdx : ∀ m, dx m ≠ 0) (u : (∀ k, Fin (n k)) → ℚ) (i : ∀ k, Fin (n k)) :
    LaplacianD d n dx bc u i
      = opL (cartCond d n dx bc) (cartPen d n dx bc) (fun _ => cartVol d dx) u i := by
  have hnum : (∑ j, cartCond d n dx bc i j * (u j - u i)) - cartPen d n dx bc i * u i
      = ∑ k, axisVolW d dx k
          * axisSecondDiff (n k) (bc k) (fun t => u (Function.update i k t)) (i k) := by
    have hswap : (∑ j, cartCond d n dx bc i j * (u j - u i))
        = ∑ k, ∑ j, (if (∀ m, m ≠ k → i m = j m) then
            axisCond (n k) (bc k) (i k) (j k) * axisVolW d dx k * (u j - u i) else 0) := by
      simp only [cartCond, Finset.sum_mul, ite_mul, zero_mul]
      exact Finset.sum_comm
    have hax : ∀ k, (∑ j, (if (∀ m, m ≠ k → i m = j m) then
          axisCond (n k) (bc k) (i k) (j k) * axisVolW d dx k * (u j - u i) else 0))
        = ∑ t : Fin (n k), axisCond (n k) (bc k) (i k) t * axisVolW d dx k
            * (u (Function.update i k t) - u i) := by
      intro k
      rw [← Finset.sum_subset
        (Finset.subset_univ (Finset.univ.image fun t : Fin (n k) => Function.update i k t))]
      · rw [Finset.sum_image]
        · refine Finset.sum_congr rfl fun t _ => ?_
          rw [if_pos fun (m : Fin d) (hm : m ≠ k) => show i m = Function.update i k t m from
            (Function.update_noteq hm t i).symm, Function.update_same]
        · intro x _ y _ hxy
          have h2 := congrFun hxy k
          rwa [Function.update_same, Function.update_same] at h2
      · intro j _ hj
        rw [if_neg]
        intro hcond
        apply hj
        rw [Finset.mem_image]
        refine ⟨j k, Finset.mem_univ _, ?_⟩
        funext m
        by_cases hm : m = k
        · subst hm
          rw [Function.update_same]
        · exact (Function.update_noteq hm (j k) i).trans (hcond m hm)
    rw [hswap, Finset.sum_congr rfl fun k _ => hax k, cartPen, Finset.sum_mul,
      ← Finset.sum_sub_distrib]
    refine Finset.sum_congr rfl fun k _ => ?_
    rw [axisSecondDiff_eq, Function.update_eq_self k i, mul_sub, Finset.mul_sum]
    congr 1
    · exact Finset.sum_congr rfl fun t _ => by ring
    · ring
  rw [opL, hnum, Finset.sum_div, LaplacianD]
  refine Finset.sum_congr rfl fun k _ => ?_
  have hW : axisVolW d dx k ≠ 0 := ne_of_gt (axisVolW_pos d dx hdx k)
  rw [cartVol_factor d dx k, mul_comm ((dx k)^2) (axisVolW d dx k),
    mul_div_mul_left _ _ hW]

/-- Walking a chain of related consecutive embedded points gives reachability. -/
theorem reach_of_chain {α : Type} (R : α → α → Prop) (hsymR : ∀ a b, R a b → R b a)
    (m : ℕ) (e : Fin m → α)
    (hadj : ∀ (s : ℕ) (h : s + 1 < m), R (e ⟨s, by omega⟩) (e ⟨s + 1, h⟩))
    (s t : Fin m) : Relation.ReflTransGen R (e s) (e t) := by
  have up : ∀ (gap : ℕ) (a b : Fin m), b.val = a.val + gap
      → Relation.ReflTransGen R (e a) (e b) := by
    intro gap
    induction gap with
    | zero =>
      intro a b h
      have hab : a = b := Fin.ext (by omega)
      rw [hab]
    | succ g ih =>
      intro a b h
      have hblt := b.isLt
      have hmid : a.val + g < m := by omega
      have hb : b = ⟨a.val + g + 1, by omega⟩ :=
        Fin.ext (show b.val = a.val + g + 1 by omega)
      rw [hb]
      exact Relation.ReflTransGen.tail (ih a ⟨a.val + g, hmid⟩ rfl)
        (hadj (a.val + g) (by omega))
  rcases le_or_lt s.val t.val with h | h
  · exact up (t.val - s.val) s t (by omega)
  · exact Relation.ReflTransGen.symmetric (fun a b hab => hsymR a b hab)
      (up (s.val - t.val) t s (by omega))

theorem axisCond_adj_pos (n : ℕ) (bc : AxisBC) (a b : Fin n) (hab : b.val = a.val + 1) :
    0 < axisCond n bc a b := by
  cases bc <;> simp only [axisCond] <;> rw [if_pos hab] <;> split_ifs <;> norm_num

/-- Cells differing by one step along one axis have positive conductance. -/
theorem cartCond_adj_pos (d : ℕ) (n : Fin d → ℕ) (dx : Fin d → ℚ) (bc : Fin d → AxisBC)
    (hdx : ∀ m, dx m ≠ 0) (i : ∀ k, Fin (n k)) (k : Fin d) (a b : Fin (n k))
    (hab : b.val = a.val + 1) :
    0 < cartCond d n dx bc (Function.update i k a) (Function.update i k b) := by
  refine Finset.sum_pos' (fun m _ => ?_) ⟨k, Finset.mem_univ _, ?_⟩
  · split_ifs
    · exact mul_nonneg (axisCond_nonneg _ _ _ _) (axisVolW_nonneg _ _ _)
    · exact le_refl 0
  · rw [if_pos fun (m : Fin d) (hm : m ≠ k) =>
      show Function.update i k a m = Function.update i k b m from
      (Function.update_noteq hm a i).trans (Function.update_noteq hm b i).symm,
      Function.update_same, Function.update_same]
    exact mul_pos (axisCond_adj_pos (n k) (bc k) a b hab) (axisVolW_pos d dx hdx k)

/-- The Cartesian conductance graph is connected. -/
theorem cartConn (d : ℕ) (n : Fin d → ℕ) (dx : Fin d → ℚ) (bc : Fin d → AxisBC)
    (hdx : ∀ m, dx m ≠ 0) : Conn (cartCond d n dx bc) := by
  have hsym : ∀ a b, cartCond d n dx bc a b ≠ 0 → cartCond d n dx bc b a ≠ 0 := by
    intro a b hab
    rw [cartCond_symm d n dx bc b a]
    exact hab
  have key : ∀ (N : ℕ) (i j : ∀ k, Fin (n k)),
      (Finset.univ.filter fun k => i k ≠ j k).card ≤ N →
      Relation.ReflTransGen (fun a b => cartCond d n dx bc a b ≠ 0) i j := by
    intro N
    induction N with
    | zero =>
      intro i j h
      have hij : i = j := by
        funext k
        by_contra hk
        have hmem : k ∈ Finset.univ.filter fun k => i k ≠ j k := by
          simp [hk]
        have := Finset.card_pos.mpr ⟨k, hmem⟩
        omega
      rw [hij]
    | succ N ih =>
      intro i j h
      by_cases hij : i = j
      · rw [hij]
      · have hex : ∃ k, i k ≠ j k := by
          by_contra hno
          push_neg at hno
          exact hij (funext hno)
        obtain ⟨k, hk⟩ := hex
        have haxis : Relation.ReflTransGen (fun a b => cartCond d n dx bc a b ≠ 0) i
            (Function.update i k (j k)) := by
          have hbase := reach_of_chain (fun a b => cartCond d n dx bc a b ≠ 0) hsym
            (n k) (fun t : Fin (n k) => Function.update i k t)
            (fun s hs => ne_of_gt (cartCond_adj_pos d n dx bc hdx i k _ _ rfl))
            (i k) (j k)
          rwa [Function.update_eq_self k i] at hbase
        refine Relation.ReflTransGen.trans haxis (ih (Function.update i k (j k)) j ?_)
        have hsub : (Finset.univ.filter fun m => Function.update i k (j k) m ≠ j m)
            ⊆ (Finset.univ.filter fun m => i m ≠ j m).erase k := by
          intro m hm
          simp only [Finset.mem_filter, Finset.mem_univ, true_and] at hm
          have hmk : m ≠ k := by
            rintro rfl
            exact hm (by rw [Function.update_same])
          rw [Finset.mem_erase]
          refine ⟨hmk, ?_⟩
          simp only [Finset.mem_filter, Finset.mem_univ, true_and]
          rw [Function.update_noteq hmk] at hm
          exact hm
        have h1 := Finset.card_le_card hsub
        have hkmem : k ∈ Finset.univ.filter fun m => i m ≠ j m := by simp [hk]
        have h2 := Finset.card_erase_of_mem hkmem
        omega
  intro i j
  exact key _ i j le_rfl

theorem axisPen_eq_zero (n : ℕ) (bc : AxisBC) (t : Fin n) (h : ¬ axisHasDirichlet bc) :
    axisPen n bc t = 0 := by
  cases bc with
  | periodic => rfl
  | sides bl bh =>
    simp only [axisHasDirichlet] at h
    push_neg at h
    obtain ⟨h1, h2⟩ := h
    have hb1 : sidePen bl = 0 := by
      cases bl
      · exact absurd rfl h1
      · rfl
    have hb2 : sidePen bh = 0 := by
      cases bh
      · exact absurd rfl h2
      · rfl
    simp [axisPen, hb1, hb2]

theorem axisPen_pos_lo (n : ℕ) (bl bh : SideBC) (t : Fin n) (ht : t.val = 0)
    (h : bl = SideBC.dirichlet) : 0 < axisPen n (AxisBC.sides bl bh) t := by
  subst h
  simp only [axisPen]
  rw [if_pos ht]
  have h2 := sidePen_nonneg bh
  have h3 : (0:ℚ) < sidePen SideBC.dirichlet := by norm_num [sidePen]
  split_ifs <;> linarith

theorem axisPen_pos_hi (n : ℕ) (bl bh : SideBC) (t : Fin n) (ht : t.val + 1 = n)
    (h : bh = SideBC.dirichlet) : 0 < axisPen n (AxisBC.sides bl bh) t := by
  subst h
  simp only [axisPen]
  rw [if_pos ht]
  have h2 := sidePen_nonneg bl
  have h3 : (0:ℚ) < sidePen SideBC.dirichlet := by norm_num [sidePen]
  split_ifs <;> linarith

theorem axisPen_exists_pos (n : ℕ) (hn : 1 ≤ n) (bc : AxisBC) (h : axisHasDirichlet bc) :
    ∃ t : Fin n, 0 < axisPen n bc t := by
  cases bc with
  | periodic => exact absurd h (by simp [axisHasDirichlet])
  | sides bl bh =>
    simp only [axisHasDirichlet] at h
    rcases h with h | h
    · exact ⟨⟨0, by omega⟩, axisPen_pos_lo n bl bh ⟨0, by omega⟩ rfl h⟩
    · refine ⟨⟨n - 1, by omega⟩, axisPen_pos_hi n bl bh ⟨n - 1, by omega⟩ ?_ h⟩
      exact Nat.succ_pred_eq_of_pos hn

theorem cartPen_zero (d : ℕ) (n : Fin d → ℕ) (dx : Fin d → ℚ) (bc : Fin d → AxisBC)
    (hnd : ∀ k, ¬ axisHasDirichlet (bc k)) (i : ∀ k, Fin (n k)) :
    cartPen d n dx bc i = 0 :=
  Finset.sum_eq_zero fun k _ => by rw [axisPen_eq_zero _ _ _ (hnd k), zero_mul]

theorem cartPen_exists_pos (d : ℕ) (n : Fin d → ℕ) (dx : Fin d → ℚ) (bc : Fin d → AxisBC)
    (hdx : ∀ m, dx m ≠ 0) (hn : ∀ k, 1 ≤ n k) (k0 : Fin d)
    (hk0 : axisHasDirichlet (bc k0)) : ∃ i0, 0 < cartPen d n dx bc i0 := by
  obtain ⟨t0, ht0⟩ := axisPen_exists_pos (n k0) (hn k0) (bc k0) hk0
  refine ⟨Function.update (fun m => ⟨0, hn m⟩) k0 t0, ?_⟩
  refine Finset.sum_pos' (fun k _ => mul_nonneg (axisPen_nonneg _ _ _)
    (axisVolW_nonneg _ _ _)) ⟨k0, Finset.mem_univ _, ?_⟩
  rw [Function.update_same]
  exact mul_pos ht0 (axisVolW_pos d dx hdx k0)

theorem polarCond_symm (rmin : ℚ) (n : ℕ) (dr : ℚ) (s t : Fin n) :
    polarCond rmin n dr s t = polarCond rmin n dr t s := by
  simp only [polarCond]
  ring

theorem polarCond_nonneg (rmin : ℚ) (n : ℕ) (dr : ℚ) (hrm : 0 ≤ rmin) (hdr : 0 < dr)
    (s t : Fin n) : 0 ≤ polarCond rmin n dr s t := by
  simp only [polarCond]
  have hA : (0:ℚ) ≤ rmin + (t.val : ℚ) * dr :=
    add_nonneg hrm (mul_nonneg (Nat.cast_nonneg _) hdr.le)
  have hB : (0:ℚ) ≤ rmin + (s.val : ℚ) * dr :=
    add_nonneg hrm (mul_nonneg (Nat.cast_nonneg _) hdr.le)
  split_ifs
  all_goals first
    | exact add_nonneg hA hB
    | exact add_nonneg hA le_rfl
    | exact add_nonneg le_rfl hB
    | norm_num

theorem polarPen_nonneg (rmin : ℚ) (n : ℕ) (dr : ℚ) (bcIn bcOut : SideBC)
    (hrm : 0 ≤ rmin) (hdr : 0 < dr) (t : Fin n) : 0 ≤ polarPen rmin n dr bcIn bcOut t := by
  simp only [polarPen]
  have h1 : (0:ℚ) ≤ (t.val : ℚ) := Nat.cast_nonneg _
  have h2 := sidePen_nonneg bcIn
  have h3 := sidePen_nonneg bcOut
  have hA : (0:ℚ) ≤ rmin + (t.val : ℚ) * dr := add_nonneg hrm (mul_nonneg h1 hdr.le)
  have hB : (0:ℚ) ≤ rmin + ((t.val : ℚ) + 1) * dr :=
    add_nonneg hrm (mul_nonneg (by linarith) hdr.le)
  split_ifs
  all_goals first
    | exact add_nonneg (mul_nonneg hA h2) (mul_nonneg hB h3)
    | exact add_nonneg (mul_nonneg hA h2) le_rfl
    | exact add_nonneg le_rfl (mul_nonneg hB h3)
    | norm_num

theorem polarVol_pos (rmin : ℚ) (n : ℕ) (dr : ℚ) (hrm : 0 ≤ rmin) (hdr : 0 < dr)
    (t : Fin n) : 0 < polarVol rmin n dr t := by
  simp only [polarVol]
  have h1 : (0:ℚ) ≤ (t.val : ℚ) := Nat.cast_nonneg _
  exact mul_pos (add_pos_of_nonneg_of_pos hrm (mul_pos (by linarith) hdr)) (pow_pos hdr 2)

/-- The polar stencil agrees with its conductance/penalty graph form. -/
theorem polarLaplacian_eq_opL (rmin : ℚ) (n : ℕ) (dr : ℚ) (bcIn bcOut : SideBC)
    (u : Fin n → ℚ) (i : Fin n) :
    polarLaplacian rmin n dr bcIn bcOut u i
      = opL (polarCond rmin n dr) (polarPen rmin n dr bcIn bcOut)
          (polarVol rmin n dr) u i := by
  have hilt := i.isLt
  have hS1 : (∑ s : Fin n, if s.val = i.val + 1
        then (rmin + (s.val : ℚ) * dr) * (u s - u i) else 0)
      = if h : i.val + 1 < n
        then (rmin + ((i.val : ℚ) + 1) * dr) * (u ⟨i.val + 1, h⟩ - u i) else 0 := by
    rw [sum_ite_val n (i.val + 1) fun s => (rmin + (s.val : ℚ) * dr) * (u s - u i)]
    split_ifs with h
    · push_cast
      ring
    · rfl
  have hS2 : (∑ s : Fin n, if i.val = s.val + 1
        then (rmin + (i.val : ℚ) * dr) * (u s - u i) else 0)
      = if i.val = 0 then 0
        else (rmin + (i.val : ℚ) * dr) * (u ⟨i.val - 1, by omega⟩ - u i) := by
    by_cases ht0 : i.val = 0
    · rw [if_pos ht0]
      exact Finset.sum_eq_zero fun s _ => if_neg (by omega)
    · rw [if_neg ht0]
      have hconv : ∀ s : Fin n, (if i.val = s.val + 1
            then (rmin + (i.val : ℚ) * dr) * (u s - u i) else 0)
          = (if s.val = i.val - 1
            then (rmin + (i.val : ℚ) * dr) * (u s - u i) else 0) := by
        intro s
        by_cases h1 : i.val = s.val + 1
        · rw [if_pos h1, if_pos (by omega)]
        · rw [if_neg h1, if_neg (by omega)]
      rw [Finset.sum_congr rfl fun s _ => hconv s,
        sum_ite_val n (i.val - 1) fun s => (rmin + (i.val : ℚ) * dr) * (u s - u i),
        dif_pos (by omega : i.val - 1 < n)]
  have hsum : (∑ s, polarCond rmin n dr i s * (u s - u i))
      = (∑ s : Fin n, if s.val = i.val + 1
          then (rmin + (s.val : ℚ) * dr) * (u s - u i) else 0)
        + (∑ s : Fin n, if i.val = s.val + 1
          then (rmin + (i.val : ℚ) * dr) * (u s - u i) else 0) := by
    rw [← Finset.sum_add_distrib]
    refine Finset.sum_congr rfl fun s _ => ?_
    simp only [polarCond]
    split_ifs <;> ring
  rw [opL, hsum, hS1, hS2]
  simp only [polarLaplacian, polarPen, polarVol]
  congr 1
  by_cases ht0 : i.val = 0 <;> by_cases htn : i.val + 1 < n
  · rw [if_pos ht0, dif_pos htn, dif_pos htn, if_pos ht0, if_pos ht0,
      if_neg (by omega : ¬ i.val + 1 = n)]
    linear_combination (rmin + (i.val : ℚ) * dr) * sideGhost_sub bcIn (u i)
  · rw [if_pos ht0, dif_neg htn, dif_neg htn, if_pos ht0, if_pos ht0,
      if_pos (by omega : i.val + 1 = n)]
    linear_combination (rmin + (i.val : ℚ) * dr) * sideGhost_sub bcIn (u i)
      + (rmin + ((i.val : ℚ) + 1) * dr) * sideGhost_sub bcOut (u i)
  · rw [if_neg ht0, dif_pos htn, dif_pos htn, if_neg ht0, if_neg ht0,
      if_neg (by omega : ¬ i.val + 1 = n)]
    ring
  · rw [if_neg ht0, dif_neg htn, dif_neg htn, if_neg ht0, if_neg ht0,
      if_pos (by omega : i.val + 1 = n)]
    linear_combination (rmin + ((i.val : ℚ) + 1) * dr) * sideGhost_sub bcOut (u i)

/-- The polar conductance chain is connected. -/
theorem polarConn (rmin : ℚ) (n : ℕ) (dr : ℚ) (hrm : 0 ≤ rmin) (hdr : 0 < dr) :
    Conn (polarCond rmin n dr) := by
  have hsym : ∀ a b : Fin n, polarCond rmin n dr a b ≠ 0 → polarCond rmin n dr b a ≠ 0 := by
    intro a b h
    rw [polarCond_symm rmin n dr b a]
    exact h
  intro i j
  refine reach_of_chain (fun a b => polarCond rmin n dr a b ≠ 0) hsym n (fun t => t)
    (fun s h => ?_) i j
  apply ne_of_gt
  simp only [polarCond]
  rw [if_pos trivial, if_neg (show ¬ (s = s + 1 + 1) by omega)]
  show (0:ℚ) < rmin + ((s + 1 : ℕ) : ℚ) * dr + 0
  push_cast
  have hc : (0:ℚ) < ((s:ℚ) + 1) * dr := mul_pos (by positivity) hdr
  linarith

theorem polarPen_pos_hi (rmin : ℚ) (n : ℕ) (dr : ℚ) (bcIn bcOut : SideBC)
    (hrm : 0 ≤ rmin) (hdr : 0 < dr) (t : Fin n) (ht : t.val + 1 = n)
    (h : bcOut = SideBC.dirichlet) : 0 < polarPen rmin n dr bcIn bcOut t := by
  subst h
  simp only [polarPen]
  rw [if_pos ht]
  have h1 : (0:ℚ) ≤ (t.val : ℚ) := Nat.cast_nonneg _
  have hA : (0:ℚ) ≤ (rmin + (t.val : ℚ) * dr) * sidePen bcIn :=
    mul_nonneg (add_nonneg hrm (mul_nonneg h1 hdr.le)) (sidePen_nonneg _)
  have h3 : (0:ℚ) < sidePen SideBC.dirichlet := by norm_num [sidePen]
  have hB : (0:ℚ) < (rmin + ((t.val : ℚ) + 1) * dr) * sidePen SideBC.dirichlet :=
    mul_pos (add_pos_of_nonneg_of_pos hrm (mul_pos (by linarith) hdr)) h3
  split_ifs <;> linarith

theorem polarPen_pos_lo (rmin : ℚ) (n : ℕ) (dr : ℚ) (bcIn bcOut : SideBC)
    (hrm : 0 < rmin) (hdr : 0 < dr) (t : Fin n) (ht : t.val = 0)
    (h : bcIn = SideBC.dirichlet) : 0 < polarPen rmin n dr bcIn bcOut t := by
  subst h
  simp only [polarPen]
  rw [if_pos ht]
  have h1 : (0:ℚ) ≤ (t.val : ℚ) := Nat.cast_nonneg _
  have h3 : (0:ℚ) < sidePen SideBC.dirichlet := by norm_num [sidePen]
  have hA : (0:ℚ) < (rmin + (t.val : ℚ) * dr) * sidePen SideBC.dirichlet :=
    mul_pos (add_pos_of_pos_of_nonneg hrm (mul_nonneg h1 hdr.le)) h3
  have hB : (0:ℚ) ≤ (rmin + ((t.val : ℚ) + 1) * dr) * sidePen bcOut :=
    mul_nonneg (add_nonneg hrm.le (mul_nonneg (by linarith) hdr.le)) (sidePen_nonneg _)
  split_ifs <;> linarith

theorem polarPen_zero (rmin : ℚ) (n : ℕ) (dr : ℚ) (bcIn bcOut : SideBC)
    (hsing : bcOut = SideBC.neumann ∧ (bcIn = SideBC.neumann ∨ rmin = 0)) (t : Fin n) :
    polarPen rmin n dr bcIn bcOut t = 0 := by
  obtain ⟨ho, hi⟩ := hsing
  subst ho
  simp only [polarPen, show sidePen SideBC.neumann = 0 from rfl, mul_zero, ite_self,
    add_zero]
  rcases hi with hi | hi
  · subst hi
    simp only [show sidePen SideBC.neumann = 0 from rfl, mul_zero, ite_self]
  · subst hi
    split_ifs with ha
    · rw [ha]
      norm_num
    · rfl

theorem polarPen_exists_pos (rmin : ℚ) (n : ℕ) (dr : ℚ) (bcIn bcOut : SideBC)
    (hn : 1 ≤ n) (hrm : 0 ≤ rmin) (hdr : 0 < dr)
    (hns : ¬ (bcOut = SideBC.neumann ∧ (bcIn = SideBC.neumann ∨ rmin = 0))) :
    ∃ t : Fin n, 0 < polarPen rmin n dr bcIn bcOut t := by
  cases bcOut with
  | dirichlet =>
    refine ⟨⟨n - 1, by omega⟩, polarPen_pos_hi rmin n dr bcIn SideBC.dirichlet hrm hdr
      ⟨n - 1, by omega⟩ (Nat.succ_pred_eq_of_pos hn) rfl⟩
  | neumann =>
    have hrest : ¬ (bcIn = SideBC.neumann ∨ rmin = 0) := fun hr => hns ⟨rfl, hr⟩
    push_neg at hrest
    obtain ⟨hin, hr0⟩ := hrest
    have hbcIn : bcIn = SideBC.dirichlet := by
      cases bcIn
      · rfl
      · exact absurd rfl hin
    have hrpos : 0 < rmin := lt_of_le_of_ne hrm (Ne.symm hr0)
    exact ⟨⟨0, by omega⟩, polarPen_pos_lo rmin n dr bcIn SideBC.neumann hrpos hdr
      ⟨0, by omega⟩ rfl hbcIn⟩

theorem cfg_laplacian_eq (cfg : PoissonConfig) (hwf : cfg.wellFormed)
    (u : cfg.index → ℚ) (i : cfg.index) :
    cfg.laplacian u i = opL cfg.c cfg.p cfg.w u i := by
  cases cfg with
  | cartesian d n dx bc =>
    exact LaplacianD_eq_opL d n dx bc hwf.2 u i
  | polar rmin n dr bcIn bcOut =>
    exact polarLaplacian_eq_opL rmin n dr bcIn bcOut u i

theorem cfg_symm (cfg : PoissonConfig) : ∀ i j, cfg.c i j = cfg.c j i := by
  cases cfg with
  | cartesian d n dx bc => exact cartCond_symm d n dx bc
  | polar rmin n dr bcIn bcOut => exact polarCond_symm rmin n dr

theorem cfg_cnn (cfg : PoissonConfig) (hwf : cfg.wellFormed) :
    ∀ i j, 0 ≤ cfg.c i j := by
  cases cfg with
  | cartesian d n dx bc => exact cartCond_nonneg d n dx bc
  | polar rmin n dr bcIn bcOut => exact polarCond_nonneg rmin n dr hwf.2.1 hwf.2.2

theorem cfg_pnn (cfg : PoissonConfig) (hwf : cfg.wellFormed) : ∀ i, 0 ≤ cfg.p i := by
  cases cfg with
  | cartesian d n dx bc => exact cartPen_nonneg d n dx bc
  | polar rmin n dr bcIn bcOut =>
    exact polarPen_nonneg rmin n dr bcIn bcOut hwf.2.1 hwf.2.2

theorem cfg_wpos (cfg : PoissonConfig) (hwf : cfg.wellFormed) : ∀ i, 0 < cfg.w i := by
  cases cfg with
  | cartesian d n dx bc => exact fun i => cartVol_pos d dx hwf.2
  | polar rmin n dr bcIn bcOut => exact polarVol_pos rmin n dr hwf.2.1 hwf.2.2

theorem cfg_conn (cfg : PoissonConfig) (hwf : cfg.wellFormed) : Conn cfg.c := by
  cases cfg with
  | cartesian d n dx bc => exact cartConn d n dx bc hwf.2
  | polar rmin n dr bcIn bcOut => exact polarConn rmin n dr hwf.2.1 hwf.2.2

theorem cfg_nonempty (cfg : PoissonConfig) (hwf : cfg.wellFormed) :
    Nonempty cfg.index := by
  cases cfg with
  | cartesian d n dx bc => exact ⟨fun k => ⟨0, hwf.1 k⟩⟩
  | polar rmin n dr bcIn bcOut => exact ⟨⟨0, hwf.1⟩⟩

theorem cfg_pen_zero (cfg : PoissonConfig) (hs : cfg.singularBC) :
    ∀ i, cfg.p i = 0 := by
  cases cfg with
  | cartesian d n dx bc => exact cartPen_zero d n dx bc hs
  | polar rmin n dr bcIn bcOut => exact polarPen_zero rmin n dr bcIn bcOut hs

theorem cfg_pen_pos (cfg : PoissonConfig) (hwf : cfg.wellFormed)
    (hns : ¬ cfg.singularBC) : ∃ i, cfg.p i ≠ 0 := by
  cases cfg with
  | cartesian d n dx bc =>
    have hex : ∃ k, axisHasDirichlet (bc k) := by
      by_contra hno
      push_neg at hno
      exact hns hno
    obtain ⟨k0, hk0⟩ := hex
    obtain ⟨i0, hi0⟩ := cartPen_exists_pos d n dx bc hwf.2 hwf.1 k0 hk0
    exact ⟨i0, ne_of_gt hi0⟩
  | polar rmin n dr bcIn bcOut =>
    obtain ⟨t, ht⟩ := polarPen_exists_pos rmin n dr bcIn bcOut hwf.1 hwf.2.1 hwf.2.2 hns
    exact ⟨t, ne_of_gt ht⟩

/-! ## Claim theorems -/

/-- C1: for every 1d field on an n-cell grid, applying the Laplacian with
`auto_periodic_neumann` boundary conditions after embedding the grid with
singleton axes as `[n,1]`, `[1,n]`, `[n,1,1]` or `[1,1,n]` gives exactly the
values of the 1d Laplacian, for periodic and non-periodic settings alike
(the singleton axes may carry any periodicity flag and any discretization
step). -/
theorem laplace_singleton_axes_equiv :
    ∀ (n : ℕ) (per q1 q2 : Bool) (dx e1 e2 : ℚ) (f : Fin n → ℚ) (i : Fin n) (o : Fin 1),
      laplace2d per q1 dx e1 (fun a _ => f a) i o = laplace1d per dx f i ∧
      laplace2d q1 per e1 dx (fun _ a => f a) o i = laplace1d per dx f i ∧
      laplace3d per q1 q2 dx e1 e2 (fun a _ _ => f a) i o o = laplace1d per dx f i ∧
      laplace3d q1 q2 per e1 e2 dx (fun _ _ a => f a) o o i = laplace1d per dx f i := by
  intro n per q1 q2 dx e1 e2 f i o
  refine ⟨?_, ?_, ?_, ?_⟩ <;>
    simp [laplace2d, laplace3d, laplace1d, axisDiff_const_fin1]

/-- C3: the 2d corner-point setter on a 1x1 grid whose padded array holds
interior value 3 with edge ghosts 1, 2, 4, 5: with both axes periodic all
corners become the interior value 3; with exactly one periodic axis each
corner becomes the edge ghost adjacent along the non-periodic direction;
with no periodic axis each corner becomes the mean of its two adjacent edge
ghosts — independently of the corner values held before the call. -/
theorem corner_point_setter_scenario :
    ∀ (a b c d : ℚ) (i j : Fin 3),
      cornerSet2d (n := 1) (m := 1) true true (cornerArrBoth a b c d) i j = 3 ∧
      cornerSet2d (n := 1) (m := 1) true false (cornerArrPx a b c d) i j = cornerOutPx i j ∧
      cornerSet2d (n := 1) (m := 1) false true (cornerArrPy a b c d) i j = cornerOutPy i j ∧
      cornerSet2d (n := 1) (m := 1) false false (cornerArrNone a b c d) i j
        = cornerOutNone i j := by
  intro a b c d i j
  fin_cases i <;> fin_cases j <;> refine ⟨?_, ?_, ?_, ?_⟩ <;>
    norm_num [cornerSet2d, cornerArrBoth, cornerArrPx, cornerArrPy, cornerArrNone,
      cornerOutPx, cornerOutPy, cornerOutNone, Matrix.cons_val_zero, Matrix.cons_val_one,
      Matrix.head_cons]

/-- C7: the code contradicts the spec relation between metric and scale
factors.  The default `metric` builds its diagonal as the square of the
scale factors, but the default `_scale_factors` returns the square of the
metric diagonal instead of its square root: for a coordinate system whose
metric diagonal entry is 4 (scale factor 2) the derived scale factors are
16, and rebuilding the metric from their squares yields 256, not 4.  The
consistent value 2 does satisfy the spec relation. -/
theorem metric_scale_factors_default_inconsistent :
    scaleFactorsOfMetricDiag [4] = [16] ∧
    metricDiagOfScaleFactors (scaleFactorsOfMetricDiag [4]) = [256] ∧
    metricDiagOfScaleFactors [2] = [4] ∧ (256 : ℚ) ≠ (4 : ℚ) := by
  refine ⟨?_, ?_, ?_, by norm_num⟩ <;>
    norm_num [scaleFactorsOfMetricDiag, metricDiagOfScaleFactors]

/-- C8: the fixed-step explicit solver run for the time range 1.01 with
step 0.1 performs exactly 11 steps, recorded in the diagnostics, for every
evolution-rate function and every initial state (hence deterministically
and independently of the execution backend). -/
theorem fixed_solver_steps_eleven :
    ∀ (rhs : ℚ → ℚ → ℚ) (s0 : ℚ),
      ((solveFixed 20 rhs s0 (101/100) (1/10)).2).steps = 11 := by
  intro rhs s0
  show (fixedStepLoop rhs 20 0 s0 (101/100) (1/10) 0).2 = 11
  rw [fixedStepLoop_step _ _ _ _ _ _ _ (by norm_num)]
  rw [fixedStepLoop_step _ _ _ _ _ _ _ (by norm_num)]
  rw [fixedStepLoop_step _ _ _ _ _ _ _ (by norm_num)]
  rw [fixedStepLoop_step _ _ _ _ _ _ _ (by norm_num)]
  rw [fixedStepLoop_step _ _ _ _ _ _ _ (by norm_num)]
  rw [fixedStepLoop_step _ _ _ _ _ _ _ (by norm_num)]
  rw [fixedStepLoop_step _ _ _ _ _ _ _ (by norm_num)]
  rw [fixedStepLoop_step _ _ _ _ _ _ _ (by norm_num)]
  rw [fixedStepLoop_step _ _ _ _ _ _ _ (by norm_num)]
  rw [fixedStepLoop_step _ _ _ _ _ _ _ (by norm_num)]
  rw [fixedStepLoop_step _ _ _ _ _ _ _ (by norm_num)]
  rw [fixedStepLoop_stop _ _ _ _ _ _ _ (by norm_num)]

/-- C2: on every well-formed configuration the Poisson solver covers
(any-dimensional Cartesian grids with per-axis periodic, Dirichlet or Neumann
boundary conditions, and polar grids), the solver returns a field whose
Laplacian equals the right-hand side exactly whenever a solution exists: always
for a configuration with a Dirichlet side, and for balanced right-hand sides on
fully periodic/Neumann configurations; for a singular configuration with an
unbalanced right-hand side it fails with a clear error, and indeed no solution
exists. -/
theorem poisson_solve_exact_or_singular (cfg : PoissonConfig) (hwf : cfg.wellFormed)
    (f : cfg.index → ℚ) :
    (¬ cfg.singularBC →
      ∃ u, solve_poisson_equation cfg f = Except.ok u
        ∧ ∀ i, cfg.laplacian u i = f i)
    ∧ (cfg.singularBC →
        (cfg.balanced f →
          ∃ u, solve_poisson_equation cfg f = Except.ok u
            ∧ ∀ i, cfg.laplacian u i = f i)
        ∧ (¬ cfg.balanced f →
            solve_poisson_equation cfg f = Except.error singularMsg
              ∧ ¬ ∃ u, ∀ i, cfg.laplacian u i = f i)) := by
  have hsymm := cfg_symm cfg
  have hcnn := cfg_cnn cfg hwf
  have hpnn := cfg_pnn cfg hwf
  have hwpos := cfg_wpos cfg hwf
  have hwne : ∀ i, cfg.w i ≠ 0 := fun i => ne_of_gt (hwpos i)
  have hconn := cfg_conn cfg hwf
  constructor
  · intro hns
    obtain ⟨i0, hp0⟩ := cfg_pen_pos cfg hwf hns
    obtain ⟨u, hok, hu⟩ :=
      solveSystem_exact_pinned cfg.c cfg.p cfg.w hsymm hcnn hpnn hwne hconn i0 hp0 f
    exact ⟨u, hok, fun i => by rw [cfg_laplacian_eq cfg hwf u i]; exact hu i⟩
  · intro hs
    have hpz := cfg_pen_zero cfg hs
    have hne : Nonempty cfg.index := cfg_nonempty cfg hwf
    constructor
    · intro hb
      obtain ⟨u, hok, hu⟩ :=
        solveSystem_exact_balanced cfg.c cfg.p cfg.w hsymm hcnn hwpos hconn hpz f hb
      exact ⟨u, hok, fun i => by rw [cfg_laplacian_eq cfg hwf u i]; exact hu i⟩
    · intro hnb
      obtain ⟨herr, hno⟩ :=
        solveSystem_error_unbalanced cfg.c cfg.p cfg.w hsymm hwne hpz f hnb
      refine ⟨herr, ?_⟩
      rintro ⟨u, hu⟩
      exact hno ⟨u, fun i => by rw [← cfg_laplacian_eq cfg hwf u i]; exact hu i⟩

/-- The Poisson-solver theorem applied to the demonstration configuration. -/
theorem poisson_solve_exact_or_singular_witness :
    polarDemoConfig.wellFormed ∧
    ((¬ polarDemoConfig.singularBC →
        ∃ u, solve_poisson_equation polarDemoConfig polarDemoRhs = Except.ok u
          ∧ ∀ i, polarDemoConfig.laplacian u i = polarDemoRhs i)
      ∧ (polarDemoConfig.singularBC →
          (polarDemoConfig.balanced polarDemoRhs →
            ∃ u, solve_poisson_equation polarDemoConfig polarDemoRhs = Except.ok u
              ∧ ∀ i, polarDemoConfig.laplacian u i = polarDemoRhs i)
          ∧ (¬ polarDemoConfig.balanced polarDemoRhs →
              solve_poisson_equation polarDemoConfig polarDemoRhs
                  = Except.error singularMsg
                ∧ ¬ ∃ u, ∀ i, polarDemoConfig.laplacian u i = polarDemoRhs i))) :=
  ⟨by norm_num [polarDemoConfig, PoissonConfig.wellFormed],
    poisson_solve_exact_or_singular polarDemoConfig
      (by norm_num [polarDemoConfig, PoissonConfig.wellFormed]) polarDemoRhs⟩

/-- C4: for every Cartesian grid successfully constructed from per-axis
(min, max) bounds, the stored discretization step of axis d equals
(max - min) / n and cell-center i of axis d equals min + (i + 1/2) * step;
the unit-grid shortcut yields step 1, lower bound 0 and cell centers
i + 1/2. -/
theorem cartesian_discretization_coords :
    (∀ (bds : List (ℚ × ℚ)) (shape : List ℕ) (p : PeriodicInput) (g : CartesianGrid),
        mkCartesianGrid (.nested (bds.map fun ab => [ab.1, ab.2])) shape p = .ok g →
        (∀ ab ∈ bds, ab.1 ≤ ab.2) →
        g.axes_bounds = bds ∧
        g.shape.length = bds.length ∧
        (∀ d, d < bds.length →
          g.discretization.getD d 0 =
            ((bds.getD d (0, 0)).2 - (bds.getD d (0, 0)).1) / ((g.shape.getD d 1 : ℕ) : ℚ) ∧
          ∀ i, i < g.shape.getD d 1 →
            (g.axes_coords.getD d []).getD i 0 =
              (bds.getD d (0, 0)).1 + ((i : ℚ) + 1/2) *
                (((bds.getD d (0, 0)).2 - (bds.getD d (0, 0)).1) /
                  ((g.shape.getD d 1 : ℕ) : ℚ)))) ∧
    (∀ (shape : List ℕ) (p : PeriodicInput) (g : CartesianGrid),
        mkUnitGrid shape p = .ok g →
        g.discretization = List.replicate g.shape.length 1 ∧
        (∀ ab ∈ g.axes_bounds, ab.1 = 0) ∧
        (∀ d, d < g.shape.length → ∀ i, i < g.shape.getD d 1 →
          (g.axes_coords.getD d []).getD i 0 = (i : ℚ) + 1/2)) := by
  constructor
  · intro bds shape p g h hmono
    obtain ⟨cub, shp0, per, hib, hcs, hcp, hrest⟩ := mk_ok_elim h
    simp only at hrest
    obtain ⟨hdim, hg⟩ := hrest
    set shp := if shp0.length = 1 ∧ 1 < cub.pos.length then
        List.replicate cub.pos.length (shp0.headD 1) else shp0 with hshp
    have hcub : cub = ⟨bds.map Prod.fst, bds.map fun ab => ab.2 - ab.1⟩ := by
      rw [interpretBounds_nested_pairs bds] at hib
      have hnn : ∀ s ∈ (bds.map fun ab => ab.2 - ab.1), 0 ≤ s := by
        intro s hs
        simp only [List.mem_map] at hs
        obtain ⟨ab, hab, rfl⟩ := hs
        have := hmono ab hab
        linarith
      rw [Cuboid.init_eq_self _ _ (by simp) hnn] at hib
      simpa using hib.symm
    have hbounds : cub.bounds = bds := by
      rw [hcub]
      exact bounds_zip_pairs bds
    have hlenshp : shp.length = bds.length := by
      rw [← hdim, hcub]
      simp
    have hgb : g.axes_bounds = bds := by rw [hg]; show cub.bounds = bds; exact hbounds
    have hgs : g.shape = shp := by rw [hg]; rfl
    refine ⟨hgb, by rw [hgs]; exact hlenshp, ?_⟩
    intro d hd
    have hdshp : d < shp.length := by omega
    have hdzip : d < (cub.bounds.zip shp).length := by
      simp [hbounds, hlenshp]
      omega
    have hzip : (cub.bounds.zip shp)[d] = (bds[d], shp[d]) := by
      rw [List.getElem_zip]
      congr 1
      simp [hbounds]
    have hbdsd : bds.getD d (0, 0) = bds[d] := List.getD_eq_getElem _ _ _
    have hshpd : g.shape.getD d 1 = shp[d] := by
      rw [hgs]
      exact List.getD_eq_getElem _ _ _
    constructor
    · have : g.discretization.getD d 0 =
          (discretize_interval ((bds[d]).1) ((bds[d]).2)
            (shp[d])).2 := by
        rw [hg]
        show ((cub.bounds.zip shp).map fun ab =>
          (discretize_interval ab.1.1 ab.1.2 ab.2).2).getD d 0 = _
        rw [List.getD_eq_getElem _ _ (by simpa using hdzip), List.getElem_map, hzip]
      rw [this, hbdsd, hshpd]
      simp [discretize_interval]
    · intro i hi
      have hil : i < shp[d] := by rw [← hshpd]; exact hi
      have hcoords : g.axes_coords.getD d [] =
          (discretize_interval ((bds[d]).1) ((bds[d]).2)
            (shp[d])).1 := by
        rw [hg]
        show ((cub.bounds.zip shp).map fun ab =>
          (discretize_interval ab.1.1 ab.1.2 ab.2).1).getD d [] = _
        rw [List.getD_eq_getElem _ _ (by simpa using hdzip), List.getElem_map, hzip]
      rw [hcoords, hbdsd, hshpd]
      simp only [discretize_interval]
      rw [List.getD_eq_getElem _ _ (by simpa using hil), List.getElem_map,
        List.getElem_range]
  · intro shape p g h
    unfold mkUnitGrid at h
    cases hin : mkCartesianGrid (.nested (shape.map fun (n : ℕ) => [(0 : ℚ), (n : ℚ)]))
        shape p with
    | error e => rw [hin] at h; exact absurd h (by simp)
    | ok g0 =>
      rw [hin] at h
      simp only [Except.ok.injEq] at h
      have hg : g = unitOverride g0 := h.symm
      have hgs : g.shape = g0.shape := by rw [hg]; rfl
      refine ⟨by rw [hg]; rfl, ?_, ?_⟩
      · intro ab hab
        have hb : g.axes_bounds = (Cuboid.init (List.replicate g0.shape.length 0)
            (g0.shape.map fun (s : ℕ) => (s : ℚ))).bounds := by rw [hg]; rfl
        rw [hb] at hab
        have hnn : ∀ s ∈ (g0.shape.map fun (s : ℕ) => (s : ℚ)), 0 ≤ s := by
          intro s hs
          simp only [List.mem_map] at hs
          obtain ⟨n, _, rfl⟩ := hs
          positivity
        rw [Cuboid.init_eq_self _ _ (by simp) hnn] at hab
        simp only [Cuboid.bounds] at hab
        rw [show (List.replicate g0.shape.length (0 : ℚ)) =
            List.replicate (g0.shape.map fun (s : ℕ) => (s : ℚ)).length 0 by simp,
          zipWith_replicate_left] at hab
        simp only [List.mem_map] at hab
        obtain ⟨x, _, rfl⟩ := hab
        rfl
      · intro d hd i hi
        have hcoords : g.axes_coords =
            g0.shape.map fun n => (List.range n).map fun (i : ℕ) => (i : ℚ) + 1/2 := by
          rw [hg]; rfl
        have hdl : d < g0.shape.length := by rw [← hgs]; exact hd
        have hshpd : g.shape.getD d 1 = g0.shape[d] := by
          rw [hgs]; exact List.getD_eq_getElem _ _ _
        have hil : i < g0.shape[d] := by rw [← hshpd]; exact hi
        have h1 : (List.map (fun n => List.map (fun (i : ℕ) => (i : ℚ) + 1/2)
            (List.range n)) g0.shape).getD d [] =
            List.map (fun (i : ℕ) => (i : ℚ) + 1/2) (List.range (g0.shape[d])) := by
          rw [List.getD_eq_getElem _ _ (by simpa using hdl), List.getElem_map]
        rw [hcoords, h1, List.getD_eq_getElem _ _ (by simpa using hil), List.getElem_map,
          List.getElem_range]

/-- C4 witness: the grid over `[0, 1]` with one cell has step 1 and cell
center 1/2, and the two-cell unit grid has unit steps and centers 1/2,
3/2. -/
theorem cartesian_discretization_coords_witness :
    (∀ ab ∈ [((0 : ℚ), (1 : ℚ))], ab.1 ≤ ab.2) ∧
    gridW4.axes_bounds = [((0 : ℚ), (1 : ℚ))] ∧
    gridW4.discretization.getD 0 0 = 1 ∧
    (gridW4.axes_coords.getD 0 []).getD 0 0 = 1/2 ∧
    gridWU.discretization = List.replicate gridWU.shape.length 1 ∧
    (gridWU.axes_coords.getD 0 []).getD 1 0 = 3/2 := by
  have hmk : mkCartesianGrid (.nested ([((0 : ℚ), (1 : ℚ))].map fun ab => [ab.1, ab.2]))
      [1] (.bool false) = .ok gridW4 := by
    norm_num [mkCartesianGrid, interpretBounds, checkShape, checkPeriodic, assembleGrid,
      Cuboid.init, Cuboid.bounds, discretize_interval, gridW4, List.range_succ]
  have hmkU : mkUnitGrid [2] (.bool false) = .ok gridWU := by
    norm_num [mkUnitGrid, mkCartesianGrid, interpretBounds, checkShape, checkPeriodic,
      assembleGrid, unitOverride, Cuboid.init, Cuboid.bounds, discretize_interval, gridWU,
      List.range_succ]
  have hmono : ∀ ab ∈ [((0 : ℚ), (1 : ℚ))], ab.1 ≤ ab.2 := by norm_num
  have h := cartesian_discretization_coords.1 [((0 : ℚ), (1 : ℚ))] [1] (.bool false)
    gridW4 hmk hmono
  have hU := cartesian_discretization_coords.2 [2] (.bool false) gridWU hmkU
  refine ⟨hmono, h.1, ?_, ?_, hU.1, ?_⟩
  · have h3 := (h.2.2 0 (by norm_num)).1
    rw [h3]
    norm_num [gridW4]
  · have h4 := (h.2.2 0 (by norm_num)).2 0 (by simp [gridW4])
    rw [h4]
    norm_num [gridW4]
  · have h5 := hU.2.2 0 (by simp [gridWU]) 1 (by simp [gridWU])
    rw [h5]
    norm_num

/-- C5: reconstructing a Cartesian grid (or unit grid) from its serialized
state yields a grid equal to the original, with identical (exact rational)
cell-center coordinates; and reconstruction fails with an error when the
state record carries unused extra keys. -/
theorem grid_state_roundtrip :
    (∀ (b : BoundsInput) (s : List ℕ) (p : PeriodicInput) (g : CartesianGrid),
        mkCartesianGrid b s p = .ok g →
          CartesianGrid.from_state (CartesianGrid.state g) [] = .ok g ∧
          ∀ k ks, ∃ e, CartesianGrid.from_state (CartesianGrid.state g) (k :: ks)
            = .error e) ∧
    (∀ (s : List ℕ) (p : PeriodicInput) (g : CartesianGrid),
        mkUnitGrid s p = .ok g →
          unitGridFromState (unitGridState g) [] = .ok g ∧
          ∀ k ks, ∃ e, unitGridFromState (unitGridState g) (k :: ks) = .error e) := by
  constructor
  · intro b s p g h
    have hr := mk_reconstruct h
    constructor
    · simp only [CartesianGrid.from_state, CartesianGrid.state]
      rw [hr]
      simp
    · intro k ks
      refine ⟨.valueError "state items were not used", ?_⟩
      simp only [CartesianGrid.from_state, CartesianGrid.state]
      rw [hr]
      simp
  · intro s p g h
    have hr := mkUnitGrid_reconstruct h
    constructor
    · simp only [unitGridFromState, unitGridState]
      rw [hr]
      simp
    · intro k ks
      refine ⟨.valueError "state items were not used", ?_⟩
      simp only [unitGridFromState, unitGridState]
      rw [hr]
      simp

/-- C5 witness: the concrete one-cell Cartesian grid and two-cell unit grid
round-trip through their serialized states, and an extra state key raises. -/
theorem grid_state_roundtrip_witness :
    CartesianGrid.from_state (CartesianGrid.state gridW4) [] = .ok gridW4 ∧
    (∃ e, CartesianGrid.from_state (CartesianGrid.state gridW4) ["extra"] = .error e) ∧
    unitGridFromState (unitGridState gridWU) [] = .ok gridWU ∧
    (∃ e, unitGridFromState (unitGridState gridWU) ["extra"] = .error e) := by
  have hmk : mkCartesianGrid (.nested ([((0 : ℚ), (1 : ℚ))].map fun ab => [ab.1, ab.2]))
      [1] (.bool false) = .ok gridW4 := by
    norm_num [mkCartesianGrid, interpretBounds, checkShape, checkPeriodic, assembleGrid,
      Cuboid.init, Cuboid.bounds, discretize_interval, gridW4, List.range_succ]
  have hmkU : mkUnitGrid [2] (.bool false) = .ok gridWU := by
    norm_num [mkUnitGrid, mkCartesianGrid, interpretBounds, checkShape, checkPeriodic,
      assembleGrid, unitOverride, Cuboid.init, Cuboid.bounds, discretize_interval, gridWU,
      List.range_succ]
  obtain ⟨h1, h2⟩ := grid_state_roundtrip.1 _ _ _ _ hmk
  obtain ⟨h3, h4⟩ := grid_state_roundtrip.2 _ _ _ hmkU
  exact ⟨h1, h2 "extra" [], h3, h4 "extra" []⟩

/-- C6 (amended): for a well-formed shape list, grid construction raises a
configuration error exactly when the bounds are ambiguous (flat shape (2,)),
or uninterpretable, or the number of bounds disagrees with the length of the
shape after a single-entry shape has been broadcast to the bounds dimension,
or a periodicity list length differs from the dimension; a single boolean
periodicity is broadcast and never causes an error. -/
theorem mk_error_characterization :
    ∀ (b : BoundsInput) (shape : List ℕ) (p : PeriodicInput),
      shape ≠ [] → (∀ x ∈ shape, 1 ≤ x) →
      ((∃ e, mkCartesianGrid b shape p = .error e) ↔
        boundsAmbiguous b ∨ boundsUninterpretable b ∨
        (¬(shape.length = 1 ∧ 1 < boundsDim b) ∧ boundsDim b ≠ shape.length) ∨
        (∃ l, p = .list l ∧ l.length ≠ boundsDim b)) := by
  intro b shape p hne hall
  unfold mkCartesianGrid
  cases hib : interpretBounds b with
  | error e =>
    have hbad : boundsAmbiguous b ∨ boundsUninterpretable b :=
      (interpretBounds_error_iff b).mp ⟨e, hib⟩
    simp only
    constructor
    · intro _
      tauto
    · intro _
      exact ⟨e, rfl⟩
  | ok cub =>
    have hgood : ¬ (boundsAmbiguous b ∨ boundsUninterpretable b) := by
      intro hc
      obtain ⟨e, he⟩ := (interpretBounds_error_iff b).mpr hc
      rw [hib] at he
      exact absurd he (by simp)
    have hdim : cub.pos.length = boundsDim b := interpretBounds_ok_dim hib
    rw [checkShape_ok_self shape hne hall]
    simp only
    by_cases hmis : cub.pos.length =
        (if shape.length = 1 ∧ 1 < cub.pos.length then
          List.replicate cub.pos.length (shape.headD 1) else shape).length
    · rw [if_pos hmis]
      cases p with
      | bool bb =>
        simp only [checkPeriodic]
        constructor
        · rintro ⟨e, he⟩
          exact absurd he (by simp)
        · intro hc
          rcases hc with hc | hc | hc | hc
          · exact absurd (Or.inl hc) hgood
          · exact absurd (Or.inr hc) hgood
          · exfalso
            by_cases hb : shape.length = 1 ∧ 1 < cub.pos.length
            · exact hc.1 (by rwa [hdim] at hb)
            · rw [if_neg hb] at hmis
              exact hc.2 (by rw [← hdim]; exact hmis)
          · obtain ⟨l, hl, _⟩ := hc
            exact absurd hl (by simp)
      | list l =>
        simp only [checkPeriodic]
        by_cases hlen : l.length = cub.pos.length
        · rw [if_pos hlen]
          constructor
          · rintro ⟨e, he⟩
            exact absurd he (by simp)
          · intro hc
            rcases hc with hc | hc | hc | hc
            · exact absurd (Or.inl hc) hgood
            · exact absurd (Or.inr hc) hgood
            · exfalso
              by_cases hb : shape.length = 1 ∧ 1 < cub.pos.length
              · exact hc.1 (by rwa [hdim] at hb)
              · rw [if_neg hb] at hmis
                exact hc.2 (by rw [← hdim]; exact hmis)
            · obtain ⟨l2, hl2, hlen2⟩ := hc
              injection hl2 with hl2e
              rw [← hl2e, ← hdim] at hlen2
              exact absurd hlen hlen2
        · rw [if_neg hlen]
          constructor
          · intro _
            refine Or.inr (Or.inr (Or.inr ⟨l, rfl, ?_⟩))
            rwa [← hdim]
          · intro _
            exact ⟨_, rfl⟩
    · rw [if_neg hmis]
      have hcond : ¬ (shape.length = 1 ∧ 1 < cub.pos.length) := by
        intro hb
        apply hmis
        rw [if_pos hb]
        simp
      have hms : cub.pos.length ≠ shape.length := by
        intro hb
        apply hmis
        rw [if_neg hcond]
        exact hb
      constructor
      · intro _
        exact Or.inr (Or.inr (Or.inl ⟨by rwa [hdim] at hcond, by rwa [hdim] at hms⟩))
      · intro _
        exact ⟨_, rfl⟩

/-- C6 counterexample to the claim as stated: three bounds with the
single-entry shape `[5]` have a bounds count (3) that disagrees with the
shape length (1), yet construction succeeds because the shape entry is
broadcast to all three axes. -/
theorem mk_broadcast_counterexample :
    boundsDim (.nested [[(0 : ℚ), 1], [0, 1], [0, 1]]) = 3 ∧
    ([5] : List ℕ).length = 1 ∧
    (mkCartesianGrid (.nested [[(0 : ℚ), 1], [0, 1], [0, 1]]) [5] (.bool false)).map
      (fun g => g.shape) = .ok [5, 5, 5] := by
  refine ⟨rfl, rfl, ?_⟩
  norm_num [mkCartesianGrid, interpretBounds, checkShape, checkPeriodic, assembleGrid,
    Cuboid.init, Cuboid.bounds, List.replicate_succ, Except.map]

/-- C6 witness: instantiating the characterization at a flat single upper
bound with shape `[2]` and boolean periodicity. -/
theorem mk_error_characterization_witness :
    (([2] : List ℕ) ≠ []) ∧ (∀ x ∈ ([2] : List ℕ), 1 ≤ x) ∧
    ((∃ e, mkCartesianGrid (.flat [3]) [2] (.bool false) = .error e) ↔
      boundsAmbiguous (.flat [3]) ∨ boundsUninterpretable (.flat [3]) ∨
      (¬(([2] : List ℕ).length = 1 ∧ 1 < boundsDim (.flat [3])) ∧
        boundsDim (.flat [3]) ≠ ([2] : List ℕ).length) ∨
      (∃ l, PeriodicInput.bool false = .list l ∧ l.length ≠ boundsDim (.flat [3]))) := by
  exact ⟨by simp, by simp, mk_error_characterization _ _ _ (by simp) (by simp)⟩

/-- C10: every initialised cuboid has componentwise nonnegative size and
ordered bounds (a negative size component shifts the position and stores the
absolute value), and constructing a Cartesian grid whose bounds have
min > max does not raise but silently covers the flipped interval. -/
theorem cuboid_size_nonneg_flip :
    (∀ (pos size : List ℚ),
        (∀ q ∈ (Cuboid.init pos size).size, 0 ≤ q) ∧
        ∀ ab ∈ (Cuboid.init pos size).bounds, ab.1 ≤ ab.2) ∧
    (mkCartesianGrid (.nested [[(1 : ℚ), 0]]) [4] (.bool false)).map
      (fun g => g.axes_bounds) = .ok [(0, 1)] := by
  constructor
  · intro pos size
    refine ⟨Cuboid.init_size_nonneg pos size, ?_⟩
    exact zipWith_bounds_ordered _ _ (Cuboid.init_size_nonneg pos size)
  · norm_num [mkCartesianGrid, interpretBounds, checkShape, checkPeriodic, assembleGrid,
      Cuboid.init, Cuboid.bounds, Except.map]

/-- C10 witness: the cuboid initialised at position 5 with size -2 stores
size 2 and bounds (3, 5). -/
theorem cuboid_size_nonneg_flip_witness :
    (0 : ℚ) ≤ (Cuboid.init [(5 : ℚ)] [-2]).size.getD 0 0 ∧
    ((Cuboid.init [(5 : ℚ)] [-2]).bounds.getD 0 (0, 0)).1 ≤
      ((Cuboid.init [(5 : ℚ)] [-2]).bounds.getD 0 (0, 0)).2 := by
  constructor
  · refine (cuboid_size_nonneg_flip.1 [(5 : ℚ)] [-2]).1 _ ?_
    norm_num [Cuboid.init]
  · refine (cuboid_size_nonneg_flip.1 [(5 : ℚ)] [-2]).2 _ ?_
    norm_num [Cuboid.init, Cuboid.bounds]

/-- C9: the corner-weighted 9-point Laplacian with corner weight 0 produces
exactly the output of the standard 5-point Laplacian stencil, for every 2d
field and every combination of periodic and non-periodic axes. -/
theorem ninePoint_weight_zero_eq_fivePoint :
    ∀ (n m : ℕ) (px py : Bool) (dx : ℚ) (f : Fin n → Fin m → ℚ) (i : Fin n) (j : Fin m),
      ninePointLaplace 0 px py dx f i j = laplace2d px py dx dx f i j := by
  intro n m px py dx f i j
  simp only [ninePointLaplace, laplace2d, axisDiff]
  ring

end PyPde
